import Mathlib

/-!
Verification of the incremental-review reconciliation engine of the
`ai-reviewer` pull-request bot.

The development shallowly embeds the state-bearing core of the bot:

* the payload codec that hides `{"commits": [...]}` between HTML-comment
  markers inside the overview comment (`src/messages.ts`,
  `src/pull_request.ts` lines 161-174);
* the Markdown renderers `buildLoadingMessage`, `buildOverviewMessage`,
  `buildReviewSummary` (`src/messages.ts`);
* the regex-based recovery of previous commits/findings from an existing
  review summary (`src/messages.ts` lines 255-297);
* the review phase of `handlePullRequest` (`src/pull_request.ts` lines
  126-292) and `submitReview` (lines 295-409), as a function from an
  environment (host responses, model outputs) to the list of host-mutating
  calls the run performs.

JavaScript strings are modelled as `List Char` (`String.data`); `JSON.parse`
is modelled by a fuel-indexed recursive-descent parser; JavaScript's
falsiness, in-place `Array.prototype.reverse`, `String.prototype.split`,
and `parseInt` are modelled where the source relies on them.
-/

set_option maxRecDepth 8000

namespace AiReviewer

/-! ## JavaScript string primitives (on `List Char`) -/

/-- Model of `String.prototype.split(sep)` restricted to what the code reads:
the first occurrence of a (nonempty) separator.  Returns the part before the
first occurrence of `sep` and the part after it, or `none` when `sep` does
not occur. -/
def splitFirstL (sep : List Char) (cs : List Char) : Option (List Char × List Char) :=
  if sep.isPrefixOf cs then some ([], cs.drop sep.length)
  else
    match cs with
    | [] => none
    | c :: rest => (splitFirstL sep rest).map (fun p => (c :: p.1, p.2))

/-- Model of `s.split(sep)[0]`: the segment before the first occurrence of `sep`
(the whole string when `sep` is absent). -/
def firstSegL (sep : List Char) (cs : List Char) : List Char :=
  match splitFirstL sep cs with
  | none => cs
  | some p => p.1

/-- Model of `s.includes(sub)` for nonempty `sub`. -/
def containsSubL (sub : List Char) (cs : List Char) : Bool :=
  (splitFirstL sub cs).isSome

def containsSub (sub s : String) : Bool :=
  containsSubL sub.data s.data

/-! ## JSON values and `JSON.parse` -/

/-- JSON values.  Numbers keep their source token (no claim inspects a
numeric value). -/
inductive Json where
  | null : Json
  | bool (b : Bool) : Json
  | num (token : String) : Json
  | str (s : String) : Json
  | arr (elems : List Json) : Json
  | obj (members : List (String × Json)) : Json

/-- JSON whitespace accepted by `JSON.parse`. -/
def isJsonWs (c : Char) : Bool :=
  c = ' ' || c = '\t' || c = '\n' || c = '\r'

def skipWs : List Char → List Char
  | [] => []
  | c :: cs => if isJsonWs c then skipWs cs else c :: cs

/-- Parse the body of a JSON string literal after the opening quote:
returns the decoded characters and the remainder after the closing quote. -/
def parseStrContent : List Char → Option (List Char × List Char)
  | [] => none
  | c :: rest =>
    if c = '"' then some ([], rest)
    else if c = '\\' then
      match rest with
      | [] => none
      | e :: rest2 =>
        if e = '"' ∨ e = '\\' ∨ e = '/' then
          (parseStrContent rest2).map (fun p => (e :: p.1, p.2))
        else if e = 'n' then (parseStrContent rest2).map (fun p => ('\n' :: p.1, p.2))
        else if e = 't' then (parseStrContent rest2).map (fun p => ('\t' :: p.1, p.2))
        else if e = 'r' then (parseStrContent rest2).map (fun p => ('\r' :: p.1, p.2))
        else if e = 'b' then (parseStrContent rest2).map (fun p => ('\x08' :: p.1, p.2))
        else if e = 'f' then (parseStrContent rest2).map (fun p => ('\x0c' :: p.1, p.2))
        else none
    else (parseStrContent rest).map (fun p => (c :: p.1, p.2))

def isDigitChar (c : Char) : Bool :=
  48 ≤ c.toNat && c.toNat ≤ 57

/-- Parse a JSON number token (sign, integer part, optional fraction and
exponent); returns the token and the remainder. -/
def parseNumToken (cs : List Char) : Option (List Char × List Char) :=
  let (sign, cs1) :=
    match cs with
    | '-' :: rest => (['-'], rest)
    | _ => (([] : List Char), cs)
  let intPart := cs1.takeWhile isDigitChar
  let cs2 := cs1.dropWhile isDigitChar
  if intPart = [] then none
  else
    let (frac, cs3) :=
      match cs2 with
      | '.' :: rest =>
        let ds := rest.takeWhile isDigitChar
        if ds = [] then (([] : List Char), cs2)
        else ('.' :: ds, rest.dropWhile isDigitChar)
      | _ => (([] : List Char), cs2)
    some (sign ++ intPart ++ frac, cs3)

/-- Parser mode: a plain value, the elements of an array after `[`, or the
members of an object after `{` (with the accumulated items). -/
inductive PMode where
  | val : PMode
  | elems (acc : List Json) : PMode
  | members (acc : List (String × Json)) : PMode

/-- Fuel-indexed recursive-descent parser for JSON, modelling `JSON.parse`.
Fuel bounds the recursion depth; `jsonParseL` supplies enough for any
input. -/
def parseM : Nat → PMode → List Char → Option (Json × List Char)
  | 0, _, _ => none
  | fuel + 1, .val, cs =>
    let cs1 := skipWs cs
    if "null".data.isPrefixOf cs1 then some (.null, cs1.drop 4)
    else if "true".data.isPrefixOf cs1 then some (.bool true, cs1.drop 4)
    else if "false".data.isPrefixOf cs1 then some (.bool false, cs1.drop 5)
    else
      match cs1 with
      | [] => none
      | c :: rest =>
        if c = '"' then
          (parseStrContent rest).map (fun p => (.str (String.mk p.1), p.2))
        else if c = '[' then
          (if (skipWs rest).head? = some ']' then some (.arr [], (skipWs rest).tail)
           else parseM fuel (.elems []) rest)
        else if c = '\x7b' then
          (if (skipWs rest).head? = some '\x7d' then some (.obj [], (skipWs rest).tail)
           else parseM fuel (.members []) rest)
        else
          (parseNumToken (c :: rest)).map (fun p => (.num (String.mk p.1), p.2))
  | fuel + 1, .elems acc, cs =>
    match parseM fuel .val cs with
    | none => none
    | some (v, r) =>
      let r1 := skipWs r
      if r1.head? = some ',' then parseM fuel (.elems (acc ++ [v])) r1.tail
      else if r1.head? = some ']' then some (.arr (acc ++ [v]), r1.tail)
      else none
  | fuel + 1, .members acc, cs =>
    match skipWs cs with
    | [] => none
    | d :: r =>
      if d = '"' then
        match parseStrContent r with
        | none => none
        | some (k, r2) =>
          let r3 := skipWs r2
          if r3.head? = some ':' then
            match parseM fuel .val r3.tail with
            | none => none
            | some (v, r4) =>
              let r5 := skipWs r4
              if r5.head? = some ',' then
                parseM fuel (.members (acc ++ [(String.mk k, v)])) r5.tail
              else if r5.head? = some '\x7d' then
                some (.obj (acc ++ [(String.mk k, v)]), r5.tail)
              else none
          else none
      else none

/-- Model of `JSON.parse` on character lists: parse one value and require
that only whitespace remains. -/
def jsonParseL (cs : List Char) : Option Json :=
  match parseM (cs.length + 2) .val cs with
  | some (v, rest) => if skipWs rest = [] then some v else none
  | none => none

/-! ## `JSON.stringify({ commits })` -/

/-- Escaping of one character inside a JSON string literal, as
`JSON.stringify` performs it. -/
def escChar (c : Char) : List Char :=
  if c = '"' ∨ c = '\\' then ['\\', c]
  else if c = '\n' then ['\\', 'n']
  else if c = '\t' then ['\\', 't']
  else if c = '\r' then ['\\', 'r']
  else if c = '\x08' then ['\\', 'b']
  else if c = '\x0c' then ['\\', 'f']
  else if c.toNat < 32 then
    ['\\', 'u', '0', '0',
     (Nat.digitChar (c.toNat / 16)), (Nat.digitChar (c.toNat % 16))]
  else [c]

/-- A string literal as `JSON.stringify` emits it. -/
def encStr (s : String) : List Char :=
  '"' :: (s.data.flatMap escChar) ++ ['"']

def joinComma : List (List Char) → List Char
  | [] => []
  | [x] => x
  | x :: xs => x ++ ',' :: joinComma xs

/-- Model of `JSON.stringify({ commits: commits })` (`src/messages.ts` line
119): for this flat object shape the serializer emits exactly this text. -/
def encodePayload (commits : List String) : List Char :=
  "\x7b\"commits\":[".data ++ joinComma (commits.map encStr) ++ "]\x7d".data

/-! ## Comment markers (`src/messages.ts` lines 6-12) -/

def OVERVIEW_MESSAGE_SIGNATURE : String :=
  "\n<!-- presubmit.ai: overview message -->"

def COMMENT_SIGNATURE : String := "\n<!-- presubmit.ai: comment -->"

def PAYLOAD_TAG_OPEN : String := "\n<!-- presubmit.ai: payload --"

def PAYLOAD_TAG_CLOSE : String := "\n-- presubmit.ai: payload -->"

/-! ## Payload recovery (`src/pull_request.ts` lines 165-174)

```
try {
  const payload = JSON.parse(
    overviewComment.body?.split(PAYLOAD_TAG_OPEN)[1].split(PAYLOAD_TAG_CLOSE)[0] || "{}");
  commitsReviewed = payload.commits;
} catch (error) { warning(...) }
```
-/

/-- Outcome of the `try` block: either the thrown exception was caught
(`commitsReviewed` keeps its initial `[]`), or `payload.commits` was
assigned (`none` models the JavaScript value `undefined`). -/
inductive RecOutcome where
  | caught : RecOutcome
  | assigned (v : Option Json) : RecOutcome

/-- Property access `payload.commits` on the parsed JSON value.  On `null`
the access itself throws (caught by the surrounding `try`); on any non-object
it yields `undefined`; on an object it yields the value of the last
`"commits"` member (`JSON.parse` keeps the last duplicate key). -/
def payloadCommitsJs : Json → RecOutcome
  | .null => .caught
  | .obj kvs =>
    .assigned ((kvs.reverse.find? (fun kv => kv.1 = "commits")).map (fun kv => kv.2))
  | _ => .assigned none

/-- Model of `body.split(PAYLOAD_TAG_OPEN)[1].split(PAYLOAD_TAG_CLOSE)[0]`:
`none` when `PAYLOAD_TAG_OPEN` does not occur (index 1 is `undefined`, and
`.split` on `undefined` throws). -/
def extractPayloadText (body : List Char) : Option (List Char) :=
  match splitFirstL PAYLOAD_TAG_OPEN.data body with
  | none => none
  | some p => some (firstSegL PAYLOAD_TAG_CLOSE.data (firstSegL PAYLOAD_TAG_OPEN.data p.2))

/-- The whole `try`/`catch` block of lines 165-174.  An empty extracted
segment falls back to `"{}"` (the `|| "\x7b\x7d"` on a falsy empty string). -/
def recoverPayload (body : String) : RecOutcome :=
  match extractPayloadText body.data with
  | none => .caught
  | some seg =>
    let toParse := if seg = [] then "\x7b\x7d".data else seg
    match jsonParseL toParse with
    | none => .caught
    | some j => payloadCommitsJs j

/-- Extract the strings of a JSON array that contains only strings. -/
def getStrList : List Json → Option (List String)
  | [] => some []
  | .str s :: xs => (getStrList xs).map (fun l => s :: l)
  | _ => none

/-- How the run behaves after the `try`/`catch`, given the value now held by
`commitsReviewed`:

* `list l` — `commitsReviewed` is an array of strings (also the caught case,
  where it keeps its initial `[]`); the run proceeds normally;
* `crashes` — `commitsReviewed` is `undefined` or `null`: the very next
  statement, `commitsReviewed.length > 0` (line 178), throws a `TypeError`
  that nothing catches, so the invocation dies before any host mutation;
* `weird` — `commitsReviewed` is some other JavaScript value (a string,
  number, boolean, object, or an array with non-string members): the run
  continues under JavaScript coercion semantics not modelled here. -/
inductive Recovered where
  | list (l : List String) : Recovered
  | crashes : Recovered
  | weird : Recovered
deriving DecidableEq

def classify : RecOutcome → Recovered
  | .caught => .list []
  | .assigned none => .crashes
  | .assigned (some .null) => .crashes
  | .assigned (some (.arr xs)) =>
    match getStrList xs with
    | some l => .list l
    | none => .weird
  | .assigned (some _) => .weird

/-- Recovery of `commitsReviewed` from an overview-comment body, composed. -/
def recoverCommits (body : String) : Recovered :=
  classify (recoverPayload body)

/-! ## Data model (spec section 3; `src/diff.ts` and `src/prompts.ts` are not
part of this slice, so the record shapes follow the spec and the uses in
`src/messages.ts` / `src/pull_request.ts`). -/

/-- A fetched commit: `{sha, commit: {message}}`. -/
structure CommitInfo where
  sha : String
  message : String
deriving DecidableEq

/-- One diff hunk.  Only the hunk count is consumed by the renderers, so the
line range is carried but not read. -/
structure Hunk where
  startLine : Int
  endLine : Int
deriving DecidableEq

/-- A parsed file diff (`FileDiff`): filename, optional previous filename,
status string, and hunks.  `previous_filename` is rendered only for status
`"renamed"`. -/
structure FileDiff where
  filename : String
  previous_filename : String
  status : String
  hunks : List Hunk
deriving DecidableEq

/-- A reviewer finding (`AIComment`).  `start_line`/`end_line` are `Option`
because the reviewer may omit them (`undefined` in JavaScript). -/
structure AIComment where
  file : String
  start_line : Option Int
  end_line : Option Int
  label : String
  header : String
  content : String
  highlighted_code : String
  critical : Bool
deriving DecidableEq

/-- The repository coordinates `{owner, repo}` read from the GitHub Actions
context. -/
structure RepoCtx where
  owner : String
  repo : String
deriving DecidableEq

/-- JavaScript falsiness of an optional number (`undefined` and `0` are
falsy). -/
def jsFalsyNum : Option Int → Bool
  | none => true
  | some n => n = 0

/-- Rendering of an optional number inside a template string:
`undefined` prints as `"undefined"`. -/
def optIntStr : Option Int → String
  | none => "undefined"
  | some n => toString n

/-! ## `src/messages.ts`: renderers -/

/-- Model of `sha.slice(0, 7)`. -/
def strTake7 (s : String) : String := String.mk (s.data.take 7)

/-- One file line of the loading message (`src/messages.ts` lines 51-65).
The local the source calls `prefix` is `pre` here. -/
def loadingFileLine (diff : FileDiff) : String :=
  let pre :=
    if diff.status = "added" then "➕"
    else if diff.status = "removed" then "➖"
    else if diff.status = "renamed" then "📝"
    else "🔄"
  pre ++ " " ++ diff.filename ++
    (if diff.status = "renamed" then " (from " ++ diff.previous_filename ++ ")" else "") ++
    " _(" ++ toString diff.hunks.length ++
    (if diff.hunks.length = 1 then " hunk" else " hunks") ++ ")_\n"

/-- One commit line of the loading message (`src/messages.ts` lines 39-46). -/
def loadingCommitLine (repo : RepoCtx) (c : CommitInfo) : String :=
  "- [" ++ strTake7 c.sha ++ "](https://github.com/" ++ repo.owner ++ "/" ++
    repo.repo ++ "/commit/" ++ c.sha ++ "): " ++ c.message ++ "\n"

/-- Model of `buildLoadingMessage` (`src/messages.ts` lines 14-71).  `repo` models the
module-global `context.repo` the function reads (it is not a parameter in the
source).  The second component is the state of the caller's `commits` array
after the call: `for (const commit of commits.reverse())` reverses the array
in place.  On an empty `commits` the source line 34 throws
(`commits[commits.length - 1].sha` on `undefined`); both call sites pass a
nonempty array (the run short-circuits earlier otherwise), and the model
returns the base commit slot empty in that unreached case. -/
def buildLoadingMessage (repo : RepoCtx) (baseCommit : String)
    (commits : List CommitInfo) (fileDiffs : List FileDiff) :
    String × List CommitInfo :=
  let lastSha := match commits.getLast? with | some c => c.sha | none => ""
  let reversed := commits.reverse
  ("⏳ **Analyzing changes in this PR...** ⏳\n\n" ++
    "_This might take a few minutes, please wait_\n\n" ++
    "<details>\n<summary>📥 Commits</summary>\n\n" ++
    "Analyzing changes from base (`" ++ strTake7 baseCommit ++
    "`) to latest commit (`" ++ strTake7 lastSha ++ "`):\n" ++
    String.join (reversed.map (loadingCommitLine repo)) ++
    "\n\n</details>\n\n" ++
    "<details>\n<summary>📁 Files being considered (" ++
    toString fileDiffs.length ++ ")</summary>\n\n" ++
    String.join (fileDiffs.map loadingFileLine) ++
    "\n</details>\n\n" ++
    OVERVIEW_MESSAGE_SIGNATURE,
    reversed)

/-- Model of `buildOverviewMessage` (`src/messages.ts` lines 73-123).  `prose` stands
for the deterministic Changes walkthrough built from the summary in lines
77-111 (its grouping/sorting helpers are not needed by any claim); the
function appends the signature and the encoded payload to it (lines
113-122). -/
def buildOverviewMessage (prose : String) (commits : List String) : String :=
  prose ++ OVERVIEW_MESSAGE_SIGNATURE ++ PAYLOAD_TAG_OPEN ++
    String.mk (encodePayload commits) ++ PAYLOAD_TAG_CLOSE

/-! ## `src/messages.ts`: `buildReviewSummary` and its embedded parser -/

/-- Verdict line (`src/messages.ts` lines 242-246): chosen by the *current*
`actionableComments` argument alone. -/
def verdictLine (actionableComments : List AIComment) : String :=
  if actionableComments.length = 0 then "✅ **LGTM!**\n\n"
  else "🚨 **Pull request needs attention.**\n\n"

/-- Model of `existingSummary.match(/HEADING[\s\S]*?<\/details>/)`: the text
from the first occurrence of the heading through the first subsequent
`</details>` (inclusive); `none` when the pattern cannot match. -/
def matchSection (heading : String) (body : List Char) : Option (List Char) :=
  match splitFirstL heading.data body with
  | none => none
  | some p =>
    match splitFirstL "</details>".data p.2 with
    | none => none
    | some q => some (heading.data ++ q.1 ++ "</details>".data)

/-- The character class `[a-f0-9]`. -/
def isHexLower (c : Char) : Bool :=
  (48 ≤ c.toNat && c.toNat ≤ 57) || (97 ≤ c.toNat && c.toNat ≤ 102)

/-- Does the scan position after a `[` hold seven `[a-f0-9]` characters and
a closing `]`? -/
def commitRefOk (rest : List Char) : Bool :=
  decide (rest.length ≥ 8) && (rest.take 7).all isHexLower &&
    ((rest.drop 7).head? == some ']')

/-- Model of `section.match(/\[([a-f0-9]{7})\]/g)` followed by
`.map(s => s.slice(1, 8))`: all nonoverlapping bracketed 7-character
lowercase-hex groups, left to right. -/
def scanCommitRefsAux : Nat → List Char → List String
  | 0, _ => []
  | _ + 1, [] => []
  | fuel + 1, c :: rest =>
    if c = '[' && commitRefOk rest then
      String.mk (rest.take 7) :: scanCommitRefsAux fuel (rest.drop 8)
    else scanCommitRefsAux fuel rest

def scanCommitRefs (cs : List Char) : List String :=
  scanCommitRefsAux cs.length cs

/-- Previously considered commits recovered from an existing summary
(`src/messages.ts` lines 256-260). -/
def prevCommitsOf : Option String → List String
  | none => []
  | some s =>
    match matchSection "### Commits Considered" s.data with
    | none => []
    | some sec => scanCommitRefs sec

/-- The five capture groups of the per-item regex
`- <details>[\s\S]*?<summary>(.*?) \[(.*?)-(.*?)\]<\/summary>[\s\S]*?> (.*?): "(.*?)"[\s\S]*?<\/details>`. -/
structure ScannedItem where
  file : String
  startTok : String
  endTok : String
  label : String
  header : String
deriving DecidableEq

def noNlL (cs : List Char) : Bool := cs.all (fun c => c ≠ '\n')

/-- One match of the per-item regex, modelled left to right by
first-occurrence search for each literal delimiter; the `(.*?)` groups (dot
does not match newline) are additionally required to be newline-free.  For
text in the renderer's own item format this agrees with the JavaScript lazy
regex. -/
def scanItemsStep (cs : List Char) : Option (ScannedItem × List Char) := do
  let p1 ← splitFirstL "- <details>".data cs
  let p2 ← splitFirstL "<summary>".data p1.2
  let p3 ← splitFirstL " [".data p2.2
  let p4 ← splitFirstL "-".data p3.2
  let p5 ← splitFirstL "]</summary>".data p4.2
  let p6 ← splitFirstL "> ".data p5.2
  let p7 ← splitFirstL ": \"".data p6.2
  let p8 ← splitFirstL "\"".data p7.2
  let p9 ← splitFirstL "</details>".data p8.2
  if noNlL p3.1 && noNlL p4.1 && noNlL p5.1 && noNlL p7.1 && noNlL p8.1 then
    some (⟨String.mk p3.1, String.mk p4.1, String.mk p5.1,
           String.mk p7.1, String.mk p8.1⟩, p9.2)
  else none

/-- Model of `matchAll` of the per-item regex: repeat `scanItemsStep` from the end of
each match. -/
def scanItems : Nat → List Char → List ScannedItem
  | 0, _ => []
  | fuel + 1, cs =>
    match scanItemsStep cs with
    | none => []
    | some (it, rest) => it :: scanItems fuel rest

def digitsVal (cs : List Char) : Option Nat :=
  let ds := cs.takeWhile isDigitChar
  if ds = [] then none
  else some (ds.foldl (fun a c => a * 10 + (c.toNat - 48)) 0)

/-- Model of JavaScript `parseInt`: skip leading whitespace, optional sign,
then the longest digit prefix; `none` models `NaN`. -/
def parseIntJs (s : String) : Option Int :=
  let cs := s.data.dropWhile isJsonWs
  match cs with
  | '-' :: rest => (digitsVal rest).map (fun n => -(n : Int))
  | '+' :: rest => (digitsVal rest).map (fun n => (n : Int))
  | _ => (digitsVal cs).map (fun n => (n : Int))

/-- Previously posted actionable findings recovered from an existing summary
(`src/messages.ts` lines 262-278): parsed items have empty
`content`/`highlighted_code`, and `critical` iff the label lowercases to
`"critical"`. -/
def prevActionableOf : Option String → List AIComment
  | none => []
  | some s =>
    match matchSection "### Actionable Comments" s.data with
    | none => []
    | some sec =>
      (scanItems sec.length sec).map (fun it =>
        { file := it.file, start_line := parseIntJs it.startTok,
          end_line := parseIntJs it.endTok, label := it.label,
          header := it.header, content := "", highlighted_code := "",
          critical := it.label.toLower == "critical" })

/-- Previously posted skipped findings (`src/messages.ts` lines 281-296):
like the actionable ones but `critical := false`. -/
def prevSkippedOf : Option String → List AIComment
  | none => []
  | some s =>
    match matchSection "### Skipped Comments" s.data with
    | none => []
    | some sec =>
      (scanItems sec.length sec).map (fun it =>
        { file := it.file, start_line := parseIntJs it.startTok,
          end_line := parseIntJs it.endTok, label := it.label,
          header := it.header, content := "", highlighted_code := "",
          critical := false })

/-- JavaScript `[...new Set(list)]`: first occurrences, in order. -/
def uniqFirstAux (seen : List String) : List String → List String
  | [] => []
  | x :: xs =>
    if x ∈ seen then uniqFirstAux seen xs
    else x :: uniqFirstAux (x :: seen) xs

def uniqFirstStr (l : List String) : List String := uniqFirstAux [] l

/-- The comment identity key
`` `${comment.file}-${comment.start_line}-${comment.end_line}-${comment.header}` ``
(`src/messages.ts` lines 328, 336). -/
def commentKey (c : AIComment) : String :=
  c.file ++ "-" ++ optIntStr c.start_line ++ "-" ++ optIntStr c.end_line ++
    "-" ++ c.header

/-- The dedup idiom of `src/messages.ts` lines 327-332 / 335-340:
`all.filter((comment, index) => all.findIndex(c => key(c) === key(comment)) === index)`. -/
def uniqueComments (all : List AIComment) : List AIComment :=
  ((all.enum).filter
    (fun p => all.findIdx (fun c => commentKey c == commentKey p.2) == p.1)).map
    Prod.snd

/-- One rendered finding item (`src/messages.ts` lines 345-348 / 355-358). -/
def commentItemRS (c : AIComment) : String :=
  "- <details>\n  <summary>" ++ c.file ++ " [" ++ optIntStr c.start_line ++
    "-" ++ optIntStr c.end_line ++ "]</summary>\n\n  > " ++ c.label ++
    ": \"" ++ c.header ++ "\"\n  </details>\n"

/-- One rendered commit line of the summary (`src/messages.ts` lines
305-308). -/
def commitLineRS (repo : RepoCtx) (commits : List CommitInfo) (sha : String) :
    String :=
  "- [" ++ sha ++ "](https://github.com/" ++ repo.owner ++ "/" ++ repo.repo ++
    "/commit/" ++ sha ++ ")" ++
    (match commits.find? (fun c => sha.data.isPrefixOf c.sha.data) with
     | some c => ": " ++ c.message
     | none => "") ++ "\n"

/-- One rendered file line of the summary (`src/messages.ts` lines
313-322). -/
def fileLineRS (diff : FileDiff) : String :=
  "- " ++ diff.filename ++
    (if diff.status = "renamed" then " (from " ++ diff.previous_filename ++ ")"
     else "") ++
    " _(" ++ toString diff.hunks.length ++
    (if diff.hunks.length = 1 then " hunk" else " hunks") ++ ")_\n"

/-- Everything `buildReviewSummary` renders after the verdict line
(`src/messages.ts` lines 248-362): the fixed heading, the section extracted
from `existingSummary`, the merged commit list, files, and the deduplicated
actionable/skipped sections. -/
def reviewSummaryRest (ctx : RepoCtx) (files : List FileDiff)
    (commits : List CommitInfo)
    (actionableComments skippedComments : List AIComment)
    (existingSummary : Option String) : String :=
  let previousCommits := prevCommitsOf existingSummary
  let previousActionableComments := prevActionableOf existingSummary
  let previousSkippedComments := prevSkippedOf existingSummary
  let allCommits := previousCommits ++ commits.map (fun c => strTake7 c.sha)
  let uniqueCommits := uniqFirstStr allCommits
  let uniqueActionableComments :=
    uniqueComments (previousActionableComments ++ actionableComments)
  let uniqueSkippedComments :=
    uniqueComments (previousSkippedComments ++ skippedComments)
  "### Review Summary\n\n" ++
    "<details>\n<summary>Commits Considered (" ++
    toString uniqueCommits.length ++ ")</summary>\n\n" ++
    String.join (uniqueCommits.map (commitLineRS ctx commits)) ++
    "\n</details>\n\n" ++
    "<details>\n<summary>Files Processed (" ++ toString files.length ++
    ")</summary>\n\n" ++
    String.join (files.map fileLineRS) ++
    "\n</details>\n\n" ++
    "<details>\n<summary>Actionable Comments (" ++
    toString uniqueActionableComments.length ++ ")</summary>\n\n" ++
    String.join (uniqueActionableComments.map commentItemRS) ++
    "\n</details>\n\n" ++
    "<details>\n<summary>Skipped Comments (" ++
    toString uniqueSkippedComments.length ++ ")</summary>\n\n" ++
    String.join (uniqueSkippedComments.map commentItemRS) ++
    "</details>\n\n"

/-- Model of `buildReviewSummary` (`src/messages.ts` lines 226-363).  The `context`
parameter of the source is `ctx`; the body is the verdict line (chosen by
the current `actionableComments` alone, lines 242-246) followed by
`reviewSummaryRest`. -/
def buildReviewSummary (ctx : RepoCtx) (files : List FileDiff)
    (commits : List CommitInfo)
    (actionableComments skippedComments : List AIComment)
    (existingSummary : Option String) : String :=
  verdictLine actionableComments ++
    reviewSummaryRest ctx files commits actionableComments skippedComments
      existingSummary

/-- Model of `body.split("\n")[0]`, the first line of a rendered text. -/
def firstLineL (cs : List Char) : List Char :=
  cs.takeWhile (fun c => !(c == '\n'))

/-! ## `src/pull_request.ts`: the review phase as a function to host actions -/

/-- Modelled from the spec: `buildComment` lives in `src/comments.ts`, which
is not included under `src/`; per spec section 6 it tags a generic review
comment body with the fixed comment signature marker.  No claim depends on
its exact output. -/
def buildComment (content : String) : String :=
  content ++ COMMENT_SIGNATURE

/-- One element of the batched review-comment array passed to
`createReview` (`src/pull_request.ts` lines 353-362). -/
structure ReviewCommentData where
  path : String
  body : String
  line : Option Int
  side : String
  start_line : Option Int
  start_side : Option String
deriving DecidableEq

/-- A host-mutating call performed during the review phase. -/
inductive HostAction where
  | updateComment (id : Nat) (body : String) : HostAction
  | createComment (body : String) : HostAction
  | updatePullTitle (title : String) : HostAction
  | createReviewComment (path : String) (line : Option Int) (body : String) : HostAction
  | createReview (comments : List ReviewCommentData) : HostAction
  | submitReviewFor (reviewId : Nat) (body : String) : HostAction
deriving DecidableEq

/-- Everything a run reads from outside, gathered up front: host responses,
the recovered overview comment, and the black-box model outputs. -/
structure Env where
  repo : RepoCtx
  prTitle : String
  headSha : String
  baseSha : String
  fetchedCommits : List CommitInfo
  fetchedFiles : List FileDiff
  overviewComment : Option (Nat × String)
  compareFiles : Option (List String)
  newCommentId : Nat
  summaryTitle : String
  summaryProse : String
  reviewComments : List AIComment
  priorReviews : List (Option String)
  batchReviewFails : Bool
  reviewId : Nat
deriving DecidableEq

/-- The policy predicate of `src/pull_request.ts` line 344:
`comment.critical || comment.label === "typo"`. -/
def policyKeep (c : AIComment) : Bool :=
  c.critical || c.label == "typo"

/-- Model of `comments.filter((c) => !c.end_line)` (line 327): findings with a falsy
`end_line` (absent or `0`) are file-level comments. -/
def fileCommentsOf (comments : List AIComment) : List AIComment :=
  comments.filter (fun c => jsFalsyNum c.end_line)

/-- The loop of lines 341-349 pushes **every** comment (file-level ones
included) into `lineComments` or `skippedComments` by the policy
predicate. -/
def lineCommentsOf (comments : List AIComment) : List AIComment :=
  comments.filter policyKeep

def skippedCommentsOf (comments : List AIComment) : List AIComment :=
  comments.filter (fun c => !(policyKeep c))

/-- One entry of the batched `comments` argument to `createReview`
(lines 353-362): `start_line`/`start_side` degrade to `undefined` when
`c.start_line` is falsy or not below `c.end_line` (comparisons against an
absent `end_line` are false). -/
def reviewCommentData (c : AIComment) : ReviewCommentData :=
  { path := c.file
    body := buildComment c.content
    line := c.end_line
    side := "RIGHT"
    start_line :=
      match c.start_line, c.end_line with
      | some s, some e => if s ≠ 0 ∧ s < e then some s else none
      | _, _ => none
    start_side :=
      match c.start_line, c.end_line with
      | some s, some e => if s ≠ 0 ∧ s < e then some "RIGHT" else none
      | _, _ => none }

/-- Model of `reviews.reverse().find(r => r.body?.includes("### Review Summary"))`
(lines 370-372). -/
def lastReviewBodyOf (priorReviews : List (Option String)) : Option String :=
  (priorReviews.reverse.find? (fun ob =>
    match ob with
    | some b => containsSub "### Review Summary" b
    | none => false)).bind id

/-- The host calls performed by `submitReview` (lines 295-409).  File-level
comments are posted individually under `Promise.allSettled`, so every
attempt appears in the trace regardless of individual failures.  When the
batched `createReview`/`submitReview` pair fails (`batchFails`), the
fallback posts each line comment individually (again `allSettled`); the
failed batch attempt mutates nothing and is not recorded. -/
def submitReviewActions (repo : RepoCtx) (comments : List AIComment)
    (commits : List CommitInfo) (files : List FileDiff)
    (priorReviews : List (Option String)) (batchFails : Bool)
    (reviewId : Nat) : List HostAction :=
  let fileComments := fileCommentsOf comments
  let fileActions := fileComments.map (fun c =>
    HostAction.createReviewComment c.file (some (-1)) (buildComment c.content))
  let lineComments := lineCommentsOf comments
  let skippedComments := skippedCommentsOf comments
  let commentsData := lineComments.map reviewCommentData
  let newSummary := buildReviewSummary repo files commits lineComments
    skippedComments (lastReviewBodyOf priorReviews)
  fileActions ++
    (if batchFails then
      lineComments.map (fun c =>
        HostAction.createReviewComment c.file c.end_line (buildComment c.content))
    else
      [HostAction.createReview commentsData,
       HostAction.submitReviewFor reviewId newSummary])

/-- Recovery of `commitsReviewed` (lines 161-174): in full-review mode (no
overview comment) it stays `[]`; otherwise the payload of the overview body
is decoded. -/
def recoverStage (env : Env) : Recovered :=
  match env.overviewComment with
  | none => .list []
  | some oc => recoverCommits oc.2

/-- Scoping of `filesToReview` (lines 176-194): the compare-commits call is
made only when an overview comment exists and `lastCommitReviewed` is truthy
and differs from the head SHA; the file filter runs only when the response
carries a `files` list. -/
def filesToReviewStage (env : Env) (commitsReviewed : List String) :
    List FileDiff :=
  match env.overviewComment with
  | none => env.fetchedFiles
  | some _ =>
    match commitsReviewed.getLast? with
    | none => env.fetchedFiles
    | some lastRev =>
      if lastRev ≠ "" ∧ lastRev ≠ env.headSha then
        match env.compareFiles with
        | some diffFiles =>
          env.fetchedFiles.filter (fun f =>
            diffFiles.any (fun f2 => f2 == f.filename))
        | none => env.fetchedFiles
      else env.fetchedFiles

/-- Computation of `commitsToReview` (lines 199-201):
`commitsReviewed.length ? commits.filter((c) => !commitsReviewed.includes(c.sha)) : commits`. -/
def commitsToReviewStage (env : Env) (commitsReviewed : List String) :
    List CommitInfo :=
  if commitsReviewed.isEmpty then env.fetchedCommits
  else env.fetchedCommits.filter (fun c => !(commitsReviewed.contains c.sha))

/-- Line 243-246: `pull_request.title.includes("@presubmitai") || ... ("@presubmit")`. -/
def titleMention (t : String) : Bool :=
  containsSub "@presubmitai" t || containsSub "@presubmit" t

/-- Result of one review-phase run: the decoded state, the scoped inputs,
and the host-mutating calls, in order.  When `crashed` is set the uncaught
`TypeError` of line 178 killed the run (no host mutation); when `weird` is
set the recovered payload was a JavaScript value whose coercion semantics
this model does not follow. -/
structure RunResult where
  crashed : Bool := false
  weird : Bool := false
  shortCircuit : Bool := false
  commitsReviewed : List String := []
  lastCommitReviewed : Option String := none
  filesToReview : List FileDiff := []
  commitsToReview : List CommitInfo := []
  overviewBodyWritten : Option String := none
  actions : List HostAction := []
deriving DecidableEq

/-- The review phase of `handlePullRequest` (`src/pull_request.ts` lines
126-292): recover prior state, scope files and commits, short-circuit when
nothing is new, otherwise post the loading message, optionally retitle the
PR, write the overview (with the payload of **all** fetched commit SHAs),
and submit the review.  `buildLoadingMessage` reverses `commitsToReview` in
place, so the later stages see the reversed array. -/
def reviewPhase (env : Env) : RunResult :=
  match recoverStage env with
  | .crashes => { crashed := true }
  | .weird => { weird := true }
  | .list commitsReviewed =>
    let lastCommitReviewed := commitsReviewed.getLast?
    let filesToReview := filesToReviewStage env commitsReviewed
    let commitsToReview := commitsToReviewStage env commitsReviewed
    if commitsToReview.isEmpty then
      { commitsReviewed := commitsReviewed
        lastCommitReviewed := lastCommitReviewed
        filesToReview := filesToReview
        commitsToReview := commitsToReview
        shortCircuit := true
        actions := [] }
    else
      let loading := buildLoadingMessage env.repo
        (lastCommitReviewed.getD env.baseSha) commitsToReview filesToReview
      let commitsToReviewAfter := loading.2
      let overviewId :=
        match env.overviewComment with
        | some oc => oc.1
        | none => env.newCommentId
      let firstAction :=
        match env.overviewComment with
        | some oc => HostAction.updateComment oc.1 loading.1
        | none => HostAction.createComment loading.1
      let titleActions :=
        if titleMention env.prTitle then [HostAction.updatePullTitle env.summaryTitle]
        else []
      let overviewBody := buildOverviewMessage env.summaryProse
        (env.fetchedCommits.map (fun c => c.sha))
      let comments := env.reviewComments.filter (fun c =>
        c.content.trim != "" && env.fetchedFiles.any (fun f => f.filename == c.file))
      let reviewActions := submitReviewActions env.repo comments
        commitsToReviewAfter filesToReview env.priorReviews
        env.batchReviewFails env.reviewId
      { commitsReviewed := commitsReviewed
        lastCommitReviewed := lastCommitReviewed
        filesToReview := filesToReview
        commitsToReview := commitsToReview
        overviewBodyWritten := some overviewBody
        actions := [firstAction] ++ titleActions ++
          [HostAction.updateComment overviewId overviewBody] ++ reviewActions }

/-! ## Reference formulation of first-occurrence deduplication

`firstOccs seen l` keeps the first element of `l` for each identity key not
in `seen`; it is proved equal to the `filter`/`findIndex` idiom
`uniqueComments` below and carries the merge laws. -/

def firstOccs (seen : List String) : List AIComment → List AIComment
  | [] => []
  | c :: cs =>
    if commentKey c ∈ seen then firstOccs seen cs
    else c :: firstOccs (commentKey c :: seen) cs

/-- Predicate `isHexString s`: every character is `[a-f0-9]` (the alphabet of git
commit SHAs). -/
def isHexString (s : String) : Bool := s.data.all isHexLower

/-! ## Concrete inputs used by witnesses and counterexamples -/

def fdF : FileDiff := ⟨"f.ts", "", "modified", [⟨1, 2⟩]⟩

def fdG : FileDiff := ⟨"g.ts", "", "added", []⟩

/-- A baseline environment: PR with fetched commits `aa`, `bb`, an overview
comment whose payload records both as reviewed, head at `bb`. -/
def envBase : Env :=
  { repo := ⟨"o", "r"⟩
    prTitle := "t"
    headSha := "bb"
    baseSha := "base"
    fetchedCommits := [⟨"aa", "m1"⟩, ⟨"bb", "m2"⟩]
    fetchedFiles := []
    overviewComment := some (7, buildOverviewMessage "p" ["aa", "bb"])
    compareFiles := none
    newCommentId := 0
    summaryTitle := "st"
    summaryProse := "p"
    reviewComments := []
    priorReviews := []
    batchReviewFails := false
    reviewId := 1 }

/-- An overview-comment body whose payload block holds the well-formed JSON
`\x7b\x7d` (an object without a `commits` member). -/
def c2Body : String :=
  OVERVIEW_MESSAGE_SIGNATURE ++ PAYLOAD_TAG_OPEN ++ "\x7b\x7d" ++ PAYLOAD_TAG_CLOSE

def envCorrupt : Env := { envBase with overviewComment := some (7, c2Body) }

/-- Environment after a force-push: the payload records `aa`, `bb` but the
PR now contains only the new commit `cc`. -/
def envForcePush : Env :=
  { envBase with fetchedCommits := [⟨"cc", "m"⟩], headSha := "cc" }

/-- Environment in which the recovered `lastReviewed` equals the head SHA
while a new commit `cc` still needs review. -/
def envHeadReviewed : Env :=
  { envBase with
    overviewComment := some (7, buildOverviewMessage "p" ["bb"])
    fetchedCommits := [⟨"bb", "m2"⟩, ⟨"cc", "m3"⟩]
    headSha := "bb"
    fetchedFiles := [fdF] }

/-- Environment with one new commit `cc` and a commit-range diff touching
only `f.ts`. -/
def envIncremental : Env :=
  { envBase with
    fetchedCommits := [⟨"aa", "m1"⟩, ⟨"bb", "m2"⟩, ⟨"cc", "m3"⟩]
    headSha := "cc"
    compareFiles := some ["f.ts"]
    fetchedFiles := [fdF, fdG] }

/-- Two findings with distinct `(file, start_line, end_line, header)` tuples
whose hyphen-joined string keys coincide (`"a-1-2-3-h"`). -/
def cmA : AIComment := ⟨"a-1", some 2, some 3, "lbl", "h", "", "", false⟩

def cmB : AIComment := ⟨"a", some 1, some 2, "lbl", "3-h", "", "", false⟩

/-- A finding with no `end_line` that is neither critical nor a typo. -/
def cmFileLevel : AIComment := ⟨"f", none, none, "style", "h", "body", "", false⟩

/-- An existing-summary text in exactly the shape the extraction regexes of
`buildReviewSummary` expect (heading `### Actionable Comments`, one item). -/
def c8Existing : String :=
  "### Actionable Comments\n- <details>\n  <summary>f.ts [3-4]</summary>\n\n  > bug: \"m\"\n  </details>\n</details>"

def c7Commits : List CommitInfo := [⟨"aaaaaaa", "m"⟩]

def c7Actionable : List AIComment :=
  [⟨"f.ts", some 1, some 2, "bug", "hdr", "c", "hc", true⟩]

/-- The review summary rendered for one commit and one actionable finding —
the text the next invocation's parser receives. -/
def c7Rendered : String :=
  buildReviewSummary ⟨"o", "r"⟩ [] c7Commits c7Actionable [] none

/-! ## Shared lemmas about the review phase -/

theorem recoverStage_of_ok (env : Env) (hc : (reviewPhase env).crashed = false)
    (hw : (reviewPhase env).weird = false) : ∃ l, recoverStage env = .list l := by
  cases h : recoverStage env with
  | list l => exact ⟨l, rfl⟩
  | crashes => simp [reviewPhase, h] at hc
  | weird => simp [reviewPhase, h] at hw

theorem reviewPhase_fields (env : Env) (l : List String)
    (h : recoverStage env = .list l) :
    (reviewPhase env).commitsReviewed = l ∧
    (reviewPhase env).lastCommitReviewed = l.getLast? ∧
    (reviewPhase env).filesToReview = filesToReviewStage env l ∧
    (reviewPhase env).commitsToReview = commitsToReviewStage env l ∧
    (reviewPhase env).crashed = false ∧
    (reviewPhase env).weird = false := by
  simp only [reviewPhase, h]
  by_cases he : (commitsToReviewStage env l).isEmpty <;> simp [he]

theorem reviewPhase_shortCircuit (env : Env) (l : List String)
    (h : recoverStage env = .list l)
    (he : commitsToReviewStage env l = []) :
    (reviewPhase env).actions = [] ∧ (reviewPhase env).shortCircuit = true ∧
    (reviewPhase env).overviewBodyWritten = none := by
  simp [reviewPhase, h, he]

theorem reviewPhase_proceed (env : Env) (l : List String)
    (h : recoverStage env = .list l)
    (he : commitsToReviewStage env l ≠ []) :
    (reviewPhase env).overviewBodyWritten =
      some (buildOverviewMessage env.summaryProse
        (env.fetchedCommits.map (fun c => c.sha))) ∧
    (reviewPhase env).shortCircuit = false := by
  have he2 : (commitsToReviewStage env l).isEmpty = false := by
    simpa [List.isEmpty_iff] using he
  simp [reviewPhase, h, he2]

theorem commitsToReviewStage_eq (env : Env) (l : List String) :
    commitsToReviewStage env l =
      env.fetchedCommits.filter (fun c => !(l.contains c.sha)) := by
  unfold commitsToReviewStage
  split
  · next hl =>
    have : l = [] := by simpa [List.isEmpty_iff] using hl
    subst this
    simp
  · rfl

/-! ## Claim C1 -/

/-- C1: in the review phase, the commits needing review are exactly the
fetched commits whose full SHA is not contained in the recovered
`commitsReviewed` list, kept in fetched order (a `filter` of the fetched
list); when `commitsReviewed` is empty this is all fetched commits; and
whenever the set is empty the invocation short-circuits, performing no
host-mutating call (no overview-comment create or update, no review
creation or submission: the action trace is empty). -/
theorem c1_commits_to_review_and_short_circuit (env : Env)
    (hc : (reviewPhase env).crashed = false)
    (hw : (reviewPhase env).weird = false) :
    (reviewPhase env).commitsToReview =
      env.fetchedCommits.filter
        (fun c => !((reviewPhase env).commitsReviewed.contains c.sha)) ∧
    ((reviewPhase env).commitsReviewed = [] →
      (reviewPhase env).commitsToReview = env.fetchedCommits) ∧
    ((reviewPhase env).commitsToReview = [] →
      (reviewPhase env).actions = [] ∧
      (reviewPhase env).shortCircuit = true ∧
      (reviewPhase env).overviewBodyWritten = none) := by
  obtain ⟨l, h⟩ := recoverStage_of_ok env hc hw
  obtain ⟨hrev, -, -, hctr, -, -⟩ := reviewPhase_fields env l h
  refine ⟨?_, ?_, ?_⟩
  · rw [hctr, hrev, commitsToReviewStage_eq]
  · intro hnil
    rw [hrev] at hnil
    subst hnil
    rw [hctr, commitsToReviewStage_eq]
    simp
  · intro hempty
    rw [hctr] at hempty
    exact reviewPhase_shortCircuit env l h hempty

/-- C1 witness: on a PR whose overview payload already records both fetched
commits, the run short-circuits with an empty action trace. -/
theorem c1_witness :
    (reviewPhase envBase).commitsToReview = [] ∧
    (reviewPhase envBase).actions = [] ∧
    (reviewPhase envBase).shortCircuit = true := by
  have h := c1_commits_to_review_and_short_circuit envBase (by decide) (by decide)
  have hempty : (reviewPhase envBase).commitsToReview = [] := by decide
  exact ⟨hempty, (h.2.2 hempty).1, (h.2.2 hempty).2.1⟩

/-! ## Claim C2 -/

/-- C2: evaluation at the failing input.  An overview body whose payload
block holds the well-formed JSON object `\x7b\x7d` (no `commits` member) is
decoded to `undefined`; the next statement of the source
(`commitsReviewed.length > 0`, line 178) then throws an uncaught
`TypeError`, so the invocation crashes (with no host mutation) instead of
degrading to full-review mode.  By contrast, the two failure modes the
codec does tolerate — markers absent, or malformed JSON between them —
recover the empty list. -/
theorem c2_crash_on_commitless_payload :
    recoverPayload c2Body = .assigned none ∧
    recoverCommits c2Body = .crashes ∧
    (reviewPhase envCorrupt).crashed = true ∧
    (reviewPhase envCorrupt).actions = [] ∧
    recoverCommits (OVERVIEW_MESSAGE_SIGNATURE ++ "no payload markers") = .list [] ∧
    recoverCommits (OVERVIEW_MESSAGE_SIGNATURE ++ PAYLOAD_TAG_OPEN ++ "garbage" ++
      PAYLOAD_TAG_CLOSE) = .list [] := by
  refine ⟨rfl, by decide, ?_, ?_, by decide, by decide⟩
  · simp [reviewPhase, recoverStage, envCorrupt, envBase]
    decide
  · simp [reviewPhase, recoverStage, envCorrupt, envBase]
    decide

/-! ## Claim C9 -/

/-- C9 counterexample: a finding with no `end_line` that is neither critical
nor labelled `"typo"` *does* appear in the skipped-comments list (the
partition loop of `src/pull_request.ts` lines 341-349 runs over all
comments, not only those with an `end_line`), contradicting the claim that
findings without an `end_line` never appear there. -/
theorem c9_counterexample :
    jsFalsyNum cmFileLevel.end_line = true ∧
    cmFileLevel.end_line = none ∧
    skippedCommentsOf [cmFileLevel] = [cmFileLevel] := by decide

/-- C9 amended: findings with a falsy `end_line` are each posted
individually as file-level comments — the trace contains one
`createReviewComment` per such finding, as a prefix, independent of whether
the batched submission fails (`allSettled`: no attempt blocks another) —
but the policy partition runs over *all* findings: a finding is in the
skipped list iff it fails `critical || label == "typo"`, regardless of
whether it has an `end_line`, so an uncritical non-typo file-level finding
appears both as a file-level post and in the skipped list. -/
theorem c9_partition_and_file_comments (comments : List AIComment)
    (repo : RepoCtx) (commits : List CommitInfo) (files : List FileDiff)
    (priorReviews : List (Option String)) (batchFails : Bool) (reviewId : Nat) :
    ((submitReviewActions repo comments commits files priorReviews batchFails
        reviewId).take (fileCommentsOf comments).length =
      (fileCommentsOf comments).map (fun c =>
        HostAction.createReviewComment c.file (some (-1)) (buildComment c.content))) ∧
    (∀ c ∈ comments, jsFalsyNum c.end_line = true → c ∈ fileCommentsOf comments) ∧
    (∀ c ∈ comments,
      (c ∈ skippedCommentsOf comments ↔ ¬(c.critical = true ∨ c.label = "typo"))) ∧
    (∀ c ∈ comments,
      (c ∈ lineCommentsOf comments ↔ (c.critical = true ∨ c.label = "typo"))) := by
  refine ⟨?_, ?_, ?_, ?_⟩
  · unfold submitReviewActions
    rw [List.take_append_of_le_length (by simp [fileCommentsOf])]
    simp [fileCommentsOf]
  · intro c hc hf
    simp [fileCommentsOf, List.mem_filter, hc, hf]
  · intro c hc
    simp [skippedCommentsOf, policyKeep, List.mem_filter, hc]
  · intro c hc
    simp [lineCommentsOf, policyKeep, List.mem_filter, hc]

/-! ## Claim C10 -/

/-- C10 counterexample: after a call to `buildLoadingMessage`, the caller's
`commits` array is *not* the sequence that was passed in — `for (const
commit of commits.reverse())` (line 39) reverses it in place. -/
theorem c10_counterexample :
    (buildLoadingMessage ⟨"o", "r"⟩ "base"
        [⟨"aa", "m1"⟩, ⟨"bb", "m2"⟩] []).2 ≠ [⟨"aa", "m1"⟩, ⟨"bb", "m2"⟩] := by
  decide

/-- C10 amended: `buildOverviewMessage` and `buildReviewSummary` are pure
functions of their arguments (they are plain functions in this model and
mutate nothing), but `buildLoadingMessage` reverses its `commits` argument
in place — the caller's array afterwards is the reverse of the sequence
passed in — and it additionally reads the module-global GitHub context
(modelled by its `repo` parameter) rather than depending only on its
arguments. -/
theorem c10_loading_reverses_commits (repo : RepoCtx) (baseCommit : String)
    (commits : List CommitInfo) (fileDiffs : List FileDiff) :
    (buildLoadingMessage repo baseCommit commits fileDiffs).2 = commits.reverse := rfl

/-! ## Claim C8 -/

/-- C8 amended: the first line of the rendered review summary is the
`✅ **LGTM!**` verdict exactly when the *current* `actionableComments`
argument is empty, and the `🚨 **Pull request needs attention.**` verdict
otherwise — the source chooses the verdict from the current list alone
(line 242), before merging with the findings recovered from
`existingSummary`, so the merged list it renders may be nonempty under the
`✅` verdict. -/
theorem c8_verdict_from_current_actionable (ctx : RepoCtx)
    (files : List FileDiff) (commits : List CommitInfo)
    (actionableComments skippedComments : List AIComment)
    (existingSummary : Option String) :
    firstLineL (buildReviewSummary ctx files commits actionableComments
        skippedComments existingSummary).data =
      (if actionableComments.isEmpty then "✅ **LGTM!**"
       else "🚨 **Pull request needs attention.**").data := by
  unfold buildReviewSummary firstLineL verdictLine
  cases actionableComments with
  | nil =>
    rw [String.data_append, List.takeWhile_append, if_neg (by decide)]
    simp
  | cons c cs =>
    rw [String.data_append]
    simp only [List.length_cons]
    rw [if_neg (by simp), List.takeWhile_append, if_neg (by decide)]
    simp

/-- C8 counterexample: with an `existingSummary` carrying one parseable
actionable item and an empty current actionable list, the rendered summary
opens with the `✅ **LGTM!**` verdict while the deduplicated actionable list
it renders (previous merged with current) has one element — so the verdict
is not equivalent to that merged list being empty. -/
theorem c8_counterexample :
    firstLineL (buildReviewSummary ⟨"o", "r"⟩ [] [] [] []
        (some c8Existing)).data = "✅ **LGTM!**".data ∧
    (uniqueComments (prevActionableOf (some c8Existing) ++ [])).length = 1 ∧
    containsSub "Actionable Comments (1)"
      (buildReviewSummary ⟨"o", "r"⟩ [] [] [] [] (some c8Existing)) = true := by
  refine ⟨?_, by decide, by decide⟩
  decide

/-! ## Claim C7 -/

/-- C7: evaluation at the failing input.  `buildReviewSummary` renders its
section titles inside `<summary>` tags (`Commits Considered (n)`,
`Actionable Comments (n)`, ...), but its own extraction regexes look for
Markdown headings `### Commits Considered` / `### Actionable Comments` /
`### Skipped Comments`, which never occur in rendered output.  Parsing a
rendered summary therefore recovers nothing: the previous-commit and
previous-finding lists are empty even though the rendered text plainly
contains the 7-character prefix `aaaaaaa` and the item `f.ts [1-2]`. -/
theorem c7_render_parse_mismatch :
    prevCommitsOf (some c7Rendered) = [] ∧
    prevActionableOf (some c7Rendered) = [] ∧
    prevSkippedOf (some c7Rendered) = [] ∧
    matchSection "### Commits Considered" c7Rendered.data = none ∧
    scanCommitRefs c7Rendered.data = ["aaaaaaa"] ∧
    containsSub "<summary>Commits Considered (1)</summary>" c7Rendered = true ∧
    containsSub "f.ts [1-2]" c7Rendered = true := by
  refine ⟨by decide, by decide, by decide, rfl, by decide, by decide, by decide⟩

/-! ## Claim C6 -/

/-- C6 amended: with a prior overview comment, when the recovered
`lastReviewed` is a nonempty SHA different from the head and the host's
range diff returns a files list `F`, `filesToReview` is exactly the fetched
files whose filename appears in `F` (the empty set when `F` is empty); but
when `lastReviewed` equals the head, or is absent, or the range-diff
response carries no files list, `filesToReview` stays the *full* fetched
set — it does not narrow to nothing. -/
theorem c6_incremental_file_scope (env : Env) (oc : Nat × String)
    (hov : env.overviewComment = some oc)
    (hc : (reviewPhase env).crashed = false)
    (hw : (reviewPhase env).weird = false) :
    (∀ lr F, (reviewPhase env).lastCommitReviewed = some lr → lr ≠ "" →
      lr ≠ env.headSha → env.compareFiles = some F →
      (reviewPhase env).filesToReview =
        env.fetchedFiles.filter (fun f => F.any (fun f2 => f2 == f.filename))) ∧
    ((reviewPhase env).lastCommitReviewed = some env.headSha →
      (reviewPhase env).filesToReview = env.fetchedFiles) ∧
    ((reviewPhase env).lastCommitReviewed = none →
      (reviewPhase env).filesToReview = env.fetchedFiles) ∧
    (∀ lr, (reviewPhase env).lastCommitReviewed = some lr →
      env.compareFiles = none →
      (reviewPhase env).filesToReview = env.fetchedFiles) := by
  obtain ⟨l, h⟩ := recoverStage_of_ok env hc hw
  obtain ⟨-, hlast, hfiles, -, -, -⟩ := reviewPhase_fields env l h
  rw [hlast, hfiles]
  refine ⟨?_, ?_, ?_, ?_⟩
  · intro lr F hl hne hnehead hcmp
    simp only [filesToReviewStage, hov, hl, hcmp]
    rw [if_pos ⟨hne, hnehead⟩]
  · intro hl
    simp only [filesToReviewStage, hov, hl]
    rw [if_neg]
    rintro ⟨-, hne⟩
    exact hne rfl
  · intro hl
    simp only [filesToReviewStage, hov, hl]
  · intro lr hl hcmp
    simp only [filesToReviewStage, hov, hl, hcmp]
    split <;> rfl

/-- C6 witness: with `lastReviewed = bb`, head `cc`, and a range diff
touching only `f.ts`, the file scope narrows to exactly that file. -/
theorem c6_witness :
    (reviewPhase envIncremental).filesToReview = [fdF] := by
  have h := c6_incremental_file_scope envIncremental
    (7, buildOverviewMessage "p" ["aa", "bb"]) rfl (by decide) (by decide)
  have h1 := h.1 "bb" ["f.ts"] (by decide) (by decide) (by decide) rfl
  rw [h1]
  decide

/-- C6 counterexample: when the recovered `lastReviewed` equals the head
commit (here `bb`) while a new commit still needs review, `filesToReview`
remains the full fetched set (here the one fetched file), not the empty
set the claim asserts. -/
theorem c6_counterexample :
    (reviewPhase envHeadReviewed).lastCommitReviewed =
      some envHeadReviewed.headSha ∧
    (reviewPhase envHeadReviewed).shortCircuit = false ∧
    (reviewPhase envHeadReviewed).filesToReview = [fdF] ∧
    (reviewPhase envHeadReviewed).filesToReview ≠ [] := by decide

/-! ## Claim C5 -/

/-- C5 amended: on a proceeding run the payload written back into the
overview comment is the list of *all currently fetched* commit SHAs (line
262: `commits.map((c) => c.sha)`), not the previously stored list merged
with the newly considered ones.  When every previously recovered SHA still
occurs among the fetched commits (the normal, non-force-push case), the
fetched list coincides *as a set* with `previous ++ newly-considered` and
its length is at least the previous length — under a force-push the
previously stored SHAs are simply dropped (see the counterexample). -/
theorem c5_payload_written (env : Env)
    (hc : (reviewPhase env).crashed = false)
    (hw : (reviewPhase env).weird = false)
    (hs : (reviewPhase env).shortCircuit = false) :
    (reviewPhase env).overviewBodyWritten =
      some (buildOverviewMessage env.summaryProse
        (env.fetchedCommits.map (fun c => c.sha))) ∧
    ((reviewPhase env).commitsReviewed.Nodup →
      (∀ s ∈ (reviewPhase env).commitsReviewed,
        s ∈ env.fetchedCommits.map (fun c => c.sha)) →
      (env.fetchedCommits.map (fun c => c.sha)).toFinset =
        ((reviewPhase env).commitsReviewed ++
          (reviewPhase env).commitsToReview.map (fun c => c.sha)).toFinset ∧
      (reviewPhase env).commitsReviewed.length ≤
        (env.fetchedCommits.map (fun c => c.sha)).length) := by
  obtain ⟨l, h⟩ := recoverStage_of_ok env hc hw
  obtain ⟨hrev, -, -, hctr, -, -⟩ := reviewPhase_fields env l h
  have hne : commitsToReviewStage env l ≠ [] := by
    intro hnil
    have := (reviewPhase_shortCircuit env l h hnil).2.1
    rw [this] at hs
    exact absurd hs (by decide)
  refine ⟨(reviewPhase_proceed env l h hne).1, ?_⟩
  rw [hrev, hctr, commitsToReviewStage_eq]
  intro hnodup hsub
  constructor
  · ext x
    simp only [List.mem_toFinset, List.mem_append, List.mem_map,
      List.mem_filter, Bool.not_eq_true']
    constructor
    · rintro ⟨c, hcmem, rfl⟩
      by_cases hx : c.sha ∈ l
      · exact Or.inl hx
      · refine Or.inr ⟨c, ⟨hcmem, ?_⟩, rfl⟩
        simpa [List.contains] using hx
    · rintro (hx | ⟨c, ⟨hcmem, -⟩, rfl⟩)
      · simpa using hsub x hx
      · exact ⟨c, hcmem, rfl⟩
  · have h1 : l.toFinset.card = l.length := List.toFinset_card_of_nodup hnodup
    have h2 : l.toFinset ⊆ (env.fetchedCommits.map (fun c => c.sha)).toFinset := by
      intro x hx
      rw [List.mem_toFinset] at hx ⊢
      exact hsub x hx
    have h3 := Finset.card_le_card h2
    have h4 := (env.fetchedCommits.map (fun c => c.sha)).toFinset_card_le
    omega

/-- C5 witness: in the incremental environment (previous `aa, bb`, new
`cc`), the overview is rewritten with the payload `aa, bb, cc` and the
payload length did not decrease. -/
theorem c5_witness :
    (reviewPhase envIncremental).overviewBodyWritten =
      some (buildOverviewMessage "p" ["aa", "bb", "cc"]) ∧
    (reviewPhase envIncremental).commitsReviewed.length ≤
      (envIncremental.fetchedCommits.map (fun c => c.sha)).length := by
  have h := c5_payload_written envIncremental (by decide) (by decide) (by decide)
  exact ⟨h.1.trans (by decide), (h.2 (by decide) (by decide)).2⟩

/-- C5 counterexample: after a force-push the fetched commits are `[cc]`
while the recovered payload is `[aa, bb]`; the payload written back decodes
to `[cc]`, which is not the merge-deduplication of previous and new, and
its length (1) is *less* than the previous length (2) — the commit list is
neither append-only nor monotonically non-decreasing. -/
theorem c5_counterexample :
    (reviewPhase envForcePush).commitsReviewed = ["aa", "bb"] ∧
    (reviewPhase envForcePush).shortCircuit = false ∧
    (reviewPhase envForcePush).overviewBodyWritten =
      some (buildOverviewMessage "p" ["cc"]) ∧
    recoverCommits (buildOverviewMessage "p" ["cc"]) = .list ["cc"] ∧
    (["cc"] : List String) ≠ uniqFirstStr (["aa", "bb"] ++ ["cc"]) ∧
    (["cc"] : List String).length < (["aa", "bb"] : List String).length := by
  decide

/-! ## Claim C4: first-occurrence deduplication laws -/

theorem findIdx_append_left {α : Type} (p : α → Bool) (P l : List α)
    (h : ∃ y ∈ P, p y = true) :
    List.findIdx p (P ++ l) = List.findIdx p P := by
  induction P with
  | nil => simp at h
  | cons a P ih =>
    rw [List.cons_append, List.findIdx_cons, List.findIdx_cons]
    cases hpa : p a with
    | true => simp
    | false =>
      simp only [cond_false]
      obtain ⟨y, hy, hpy⟩ := h
      rcases List.mem_cons.mp hy with rfl | hy2
      · rw [hpa] at hpy; exact absurd hpy (by decide)
      · rw [ih ⟨y, hy2, hpy⟩]

theorem findIdx_append_right {α : Type} (p : α → Bool) (P l : List α)
    (h : ∀ y ∈ P, p y = false) :
    List.findIdx p (P ++ l) = P.length + List.findIdx p l := by
  induction P with
  | nil => simp
  | cons a P ih =>
    rw [List.cons_append, List.findIdx_cons, h a (List.mem_cons_self a P)]
    simp only [cond_false, List.length_cons]
    rw [ih (fun y hy => h y (List.mem_cons_of_mem a hy))]
    omega

theorem findIdx_lt_of_exists {α : Type} (p : α → Bool) (P : List α)
    (h : ∃ y ∈ P, p y = true) :
    List.findIdx p P < P.length := by
  induction P with
  | nil => simp at h
  | cons a P ih =>
    rw [List.findIdx_cons]
    cases hpa : p a with
    | true => simp
    | false =>
      simp only [cond_false, List.length_cons]
      obtain ⟨y, hy, hpy⟩ := h
      rcases List.mem_cons.mp hy with rfl | hy2
      · rw [hpa] at hpy; exact absurd hpy (by decide)
      · have := ih ⟨y, hy2, hpy⟩; omega

theorem firstOccs_congr (s₁ s₂ : List String)
    (h : ∀ k, k ∈ s₁ ↔ k ∈ s₂) :
    ∀ l, firstOccs s₁ l = firstOccs s₂ l := by
  intro l
  induction l generalizing s₁ s₂ with
  | nil => rfl
  | cons c cs ih =>
    rw [firstOccs, firstOccs]
    by_cases hc : commentKey c ∈ s₁
    · rw [if_pos hc, if_pos ((h _).mp hc), ih s₁ s₂ h]
    · rw [if_neg hc, if_neg (fun hx => hc ((h _).mpr hx))]
      congr 1
      exact ih _ _ (fun k => by simp [h k])

theorem uniqueComments_bridge (l : List AIComment) :
    ∀ P : List AIComment,
      ((List.enumFrom P.length l).filter (fun p =>
          (P ++ l).findIdx (fun c => commentKey c == commentKey p.2) == p.1)).map
        Prod.snd = firstOccs (P.map commentKey) l := by
  induction l with
  | nil => intro P; rfl
  | cons c cs ih =>
    intro P
    rw [List.enumFrom_cons]
    by_cases hc : commentKey c ∈ P.map commentKey
    · have hex : ∃ y ∈ P, (fun x => commentKey x == commentKey c) y = true := by
        obtain ⟨y, hy, hky⟩ := List.mem_map.mp hc
        exact ⟨y, hy, by simp [hky]⟩
      have hidx : ((P ++ c :: cs).findIdx
          (fun x => commentKey x == commentKey c) == P.length) = false := by
        rw [findIdx_append_left _ _ _ hex]
        have hlt := findIdx_lt_of_exists _ _ hex
        simp only [beq_eq_false_iff_ne, ne_eq]
        omega
      rw [List.filter_cons_of_neg (by simpa using hidx)]
      have hre : P ++ c :: cs = (P ++ [c]) ++ cs := by simp
      have hlen : P.length + 1 = (P ++ [c]).length := by simp
      rw [hre, hlen, ih (P ++ [c])]
      rw [firstOccs, if_pos hc]
      refine firstOccs_congr _ _ (fun k => ?_) cs
      simp only [List.map_append, List.mem_append, List.map_cons, List.map_nil,
        List.mem_singleton, List.mem_cons]
      constructor
      · rintro (hk | hk)
        · exact hk
        · simp at hk; subst hk; exact hc
      · exact Or.inl
    · have hall : ∀ y ∈ P, (fun x => commentKey x == commentKey c) y = false := by
        intro y hy
        simp only [beq_eq_false_iff_ne, ne_eq]
        intro hk
        exact hc (List.mem_map.mpr ⟨y, hy, hk⟩)
      have hidx : ((P ++ c :: cs).findIdx
          (fun x => commentKey x == commentKey c) == P.length) = true := by
        rw [findIdx_append_right _ _ _ hall, List.findIdx_cons]
        simp
      rw [List.filter_cons_of_pos (by simpa using hidx), List.map_cons]
      have hre : P ++ c :: cs = (P ++ [c]) ++ cs := by simp
      have hlen : P.length + 1 = (P ++ [c]).length := by simp
      rw [hre, hlen, ih (P ++ [c])]
      rw [firstOccs, if_neg hc]
      congr 1
      refine firstOccs_congr _ _ (fun k => ?_) cs
      simp only [List.map_append, List.mem_append, List.map_cons, List.map_nil,
        List.mem_singleton, List.mem_cons]
      tauto

theorem uniqueComments_eq_firstOccs (l : List AIComment) :
    uniqueComments l = firstOccs [] l := by
  have h := uniqueComments_bridge l []
  simpa [uniqueComments, List.enum] using h

theorem firstOccs_append (A B : List AIComment) :
    ∀ seen, firstOccs seen (A ++ B) =
      firstOccs seen A ++ firstOccs (A.map commentKey ++ seen) B := by
  induction A with
  | nil => intro seen; simp [firstOccs]
  | cons c cs ih =>
    intro seen
    rw [List.cons_append, firstOccs, firstOccs]
    by_cases hc : commentKey c ∈ seen
    · rw [if_pos hc, if_pos hc, ih seen]
      congr 1
      refine firstOccs_congr _ _ (fun k => ?_) B
      simp only [List.map_cons, List.mem_append, List.mem_cons]
      constructor
      · rintro (hk | hk)
        · exact Or.inl (Or.inr hk)
        · exact Or.inr hk
      · rintro (( rfl | hk) | hk)
        · exact Or.inr hc
        · exact Or.inl hk
        · exact Or.inr hk
    · rw [if_neg hc, if_neg hc, List.cons_append, ih (commentKey c :: seen)]
      congr 2
      refine firstOccs_congr _ _ (fun k => ?_) B
      simp only [List.map_cons, List.mem_append, List.mem_cons]
      tauto

theorem finset_insert_sdiff_mem (a : String) (s t : Finset String)
    (h : a ∈ t) : insert a s \ t = s \ t := by
  ext x
  simp only [Finset.mem_sdiff, Finset.mem_insert]
  constructor
  · rintro ⟨rfl | hx, hnt⟩
    · exact absurd h hnt
    · exact ⟨hx, hnt⟩
  · rintro ⟨hx, hnt⟩
    exact ⟨Or.inr hx, hnt⟩

theorem finset_insert_sdiff_card (a : String) (s t : Finset String)
    (h : a ∉ t) : (insert a s \ t).card = (s \ insert a t).card + 1 := by
  have he : insert a s \ t = insert a (s \ insert a t) := by
    ext x
    simp only [Finset.mem_sdiff, Finset.mem_insert]
    by_cases hxa : x = a
    · subst hxa; simp [h]
    · simp [hxa]
  rw [he, Finset.card_insert_of_not_mem (by simp)]

theorem firstOccs_length (l : List AIComment) :
    ∀ seen, (firstOccs seen l).length =
      (((l.map commentKey).toFinset) \ seen.toFinset).card := by
  induction l with
  | nil => intro seen; simp [firstOccs]
  | cons c cs ih =>
    intro seen
    rw [firstOccs]
    by_cases hc : commentKey c ∈ seen
    · rw [if_pos hc, ih seen, List.map_cons]
      simp only [List.toFinset_cons]
      rw [finset_insert_sdiff_mem _ _ _ (List.mem_toFinset.mpr hc)]
    · rw [if_neg hc, List.length_cons, ih (commentKey c :: seen), List.map_cons]
      simp only [List.toFinset_cons]
      rw [finset_insert_sdiff_card _ _ _ (fun hx => hc (List.mem_toFinset.mp hx))]

theorem firstOccs_keys_nodup (l : List AIComment) :
    ∀ seen, ((firstOccs seen l).map commentKey).Nodup ∧
      ∀ k ∈ (firstOccs seen l).map commentKey, k ∉ seen := by
  induction l with
  | nil => intro seen; simp [firstOccs]
  | cons c cs ih =>
    intro seen
    rw [firstOccs]
    by_cases hc : commentKey c ∈ seen
    · rw [if_pos hc]; exact ih seen
    · rw [if_neg hc, List.map_cons]
      obtain ⟨ihn, ihs⟩ := ih (commentKey c :: seen)
      refine ⟨List.nodup_cons.mpr ⟨?_, ihn⟩, ?_⟩
      · intro hmem
        exact (ihs _ hmem) (List.mem_cons_self _ _)
      · intro k hk
        rcases List.mem_cons.mp hk with rfl | hk2
        · exact hc
        · exact fun hks => (ihs k hk2) (List.mem_cons_of_mem _ hks)

theorem firstOccs_sublist (l : List AIComment) :
    ∀ seen, (firstOccs seen l).Sublist l := by
  induction l with
  | nil => intro seen; simp [firstOccs]
  | cons c cs ih =>
    intro seen
    rw [firstOccs]
    by_cases hc : commentKey c ∈ seen
    · rw [if_pos hc]; exact (ih seen).trans (List.sublist_cons_self c cs)
    · rw [if_neg hc]; exact (ih _).cons₂ c

theorem firstOccs_mem (l : List AIComment) :
    ∀ seen, ∀ x ∈ firstOccs seen l, commentKey x ∉ seen ∧ x ∈ l := by
  induction l with
  | nil => intro seen x hx; simp [firstOccs] at hx
  | cons c cs ih =>
    intro seen x hx
    rw [firstOccs] at hx
    by_cases hc : commentKey c ∈ seen
    · rw [if_pos hc] at hx
      obtain ⟨h1, h2⟩ := ih seen x hx
      exact ⟨h1, List.mem_cons_of_mem c h2⟩
    · rw [if_neg hc] at hx
      rcases List.mem_cons.mp hx with rfl | hx2
      · exact ⟨hc, List.mem_cons_self _ _⟩
      · obtain ⟨h1, h2⟩ := ih _ x hx2
        exact ⟨fun hs => h1 (List.mem_cons_of_mem _ hs),
          List.mem_cons_of_mem c h2⟩

/-- C4 amended: the merge that `buildReviewSummary` renders into the
Actionable (respectively Skipped) section — `uniqueComments (A ++ B)` —
keeps exactly the first occurrence of each identity key, where the key is
the hyphen-joined *string*
`file ++ "-" ++ start_line ++ "-" ++ end_line ++ "-" ++ header`
(`commentKey`), not the field tuple: the merged list is `A`'s first
occurrences in order followed by `B`'s novel first occurrences; its length
is the number of distinct string keys in `A ++ B`; each key appears at most
once; the merge is a sublist of `A ++ B`; and every appended `B` element is
novel (its key does not occur in `A`).  Distinct field tuples whose
hyphen-joined keys coincide are conflated (see the counterexample). -/
theorem c4_merge_dedup_laws (A B : List AIComment) :
    uniqueComments (A ++ B) =
      uniqueComments A ++ firstOccs (A.map commentKey) B ∧
    (uniqueComments (A ++ B)).length =
      ((A ++ B).map commentKey).toFinset.card ∧
    ((uniqueComments (A ++ B)).map commentKey).Nodup ∧
    (uniqueComments (A ++ B)).Sublist (A ++ B) ∧
    (∀ x ∈ firstOccs (A.map commentKey) B,
      commentKey x ∉ A.map commentKey ∧ x ∈ B) := by
  refine ⟨?_, ?_, ?_, ?_, ?_⟩
  · rw [uniqueComments_eq_firstOccs, uniqueComments_eq_firstOccs,
      firstOccs_append]
    congr 1
    exact firstOccs_congr _ _ (fun k => by simp) B
  · rw [uniqueComments_eq_firstOccs, firstOccs_length]
    simp
  · rw [uniqueComments_eq_firstOccs]
    exact (firstOccs_keys_nodup (A ++ B) []).1
  · rw [uniqueComments_eq_firstOccs]
    exact firstOccs_sublist (A ++ B) []
  · exact firstOccs_mem B (A.map commentKey)

/-- C4 counterexample: `cmA = (file "a-1", lines 2-3, header "h")` and
`cmB = (file "a", lines 1-2, header "3-h")` have distinct
`(file, start_line, end_line, header)` tuples but the same hyphen-joined
string key `"a-1-2-3-h"`, so the merge keeps only one of them: its length
is 1, not the 2 distinct identity tuples the claim counts. -/
theorem c4_counterexample :
    (cmA.file, cmA.start_line, cmA.end_line, cmA.header) ≠
      (cmB.file, cmB.start_line, cmB.end_line, cmB.header) ∧
    commentKey cmA = commentKey cmB ∧
    uniqueComments ([cmA] ++ [cmB]) = [cmA] ∧
    (uniqueComments ([cmA] ++ [cmB])).length = 1 := by decide

/-! ## Claim C3: splitting laws -/

theorem splitFirstL_here (sep cs : List Char) (h : sep.isPrefixOf cs) :
    splitFirstL sep cs = some ([], cs.drop sep.length) := by
  unfold splitFirstL
  rw [if_pos h]

theorem splitFirstL_cons_ne (sep : List Char) (c : Char) (rest : List Char)
    (h : ¬ sep.isPrefixOf (c :: rest)) :
    splitFirstL sep (c :: rest) =
      (splitFirstL sep rest).map (fun p => (c :: p.1, p.2)) := by
  conv =>
    lhs
    unfold splitFirstL
  rw [if_neg h]

theorem splitFirstL_skip (sep a t : List Char)
    (h : ∀ s2, s2 <:+ a → s2 ≠ [] → ¬ sep.isPrefixOf (s2 ++ t)) :
    splitFirstL sep (a ++ t) =
      (splitFirstL sep t).map (fun p => (a ++ p.1, p.2)) := by
  induction a with
  | nil =>
    simp only [List.nil_append]
    cases splitFirstL sep t <;> simp
  | cons c a ih =>
    have hnp : ¬ sep.isPrefixOf (c :: (a ++ t)) := by
      have := h (c :: a) (List.suffix_refl _) (by simp)
      simpa using this
    rw [List.cons_append, splitFirstL_cons_ne sep c (a ++ t) hnp,
      ih (fun s2 hs2 hne => h s2 (hs2.trans (List.suffix_cons c a)) hne)]
    cases splitFirstL sep t <;> simp

theorem splitFirstL_hit (sep a b : List Char)
    (h : ∀ s2, s2 <:+ a → s2 ≠ [] → ¬ sep.isPrefixOf (s2 ++ (sep ++ b))) :
    splitFirstL sep (a ++ (sep ++ b)) = some (a, b) := by
  rw [splitFirstL_skip sep a (sep ++ b) h,
    splitFirstL_here sep (sep ++ b) (List.isPrefixOf_iff_prefix.mpr
      (List.prefix_append sep b))]
  simp

theorem splitFirstL_none (sep cs : List Char)
    (h : ∀ s2, s2 <:+ cs → ¬ sep.isPrefixOf s2) :
    splitFirstL sep cs = none := by
  induction cs with
  | nil =>
    unfold splitFirstL
    rw [if_neg (h [] (List.suffix_refl _))]
  | cons c rest ih =>
    rw [splitFirstL_cons_ne sep c rest (h _ (List.suffix_refl _)),
      ih (fun s2 hs2 => h s2 (hs2.trans (List.suffix_cons c rest)))]
    rfl

theorem splitFirstL_none_suffix (sep cs : List Char)
    (h : splitFirstL sep cs = none) :
    ∀ s2, s2 <:+ cs → ¬ sep.isPrefixOf s2 := by
  induction cs with
  | nil =>
    intro s2 hs2 hp
    rw [List.suffix_nil.mp hs2] at hp
    unfold splitFirstL at h
    rw [if_pos hp] at h
    exact Option.noConfusion h
  | cons c rest ih =>
    intro s2 hs2 hp
    by_cases h1 : sep.isPrefixOf (c :: rest)
    · unfold splitFirstL at h
      rw [if_pos h1] at h
      exact Option.noConfusion h
    · rw [splitFirstL_cons_ne sep c rest h1] at h
      have h2 : splitFirstL sep rest = none := by
        cases he : splitFirstL sep rest with
        | none => rfl
        | some p => rw [he] at h; exact Option.noConfusion h
      rcases List.suffix_cons_iff.mp hs2 with rfl | hs3
      · exact h1 hp
      · exact ih h2 s2 hs3 hp

theorem not_prefix_append_of (sep s2 u : List Char)
    (h1 : ¬ sep <+: s2) (h2 : ¬ s2 <+: sep) : ¬ sep <+: (s2 ++ u) := by
  intro hp
  by_cases hl : sep.length ≤ s2.length
  · exact h1 (List.prefix_of_prefix_length_le hp (List.prefix_append s2 u) hl)
  · exact h2 (List.prefix_of_prefix_length_le (List.prefix_append s2 u) hp
      (by omega))

/-- If `sep` has its only newline at the front and `a2` is a nonempty
string not having `sep` as a prefix, then `sep` cannot start inside `a2`
and continue into a text that begins with a newline. -/
theorem no_mid_newline_overlap (sep w a2 : List Char)
    (h1 : ¬ sep <+: a2) (hne : a2 ≠ [])
    (hsep : ∀ c ∈ sep.tail, c ≠ '\n')
    (hw : ∃ w2, w = '\n' :: w2) : ¬ sep <+: (a2 ++ w) := by
  intro hp
  have hlen : a2.length < sep.length := by
    by_contra hge
    exact h1 (List.prefix_of_prefix_length_le hp (List.prefix_append a2 w)
      (by omega))
  have ha2 : a2 <+: sep :=
    List.prefix_of_prefix_length_le (List.prefix_append a2 w) hp (by omega)
  obtain ⟨δ, hδ⟩ := ha2
  have hδne : δ ≠ [] := by
    intro hnil
    rw [hnil, List.append_nil] at hδ
    rw [hδ] at hlen
    omega
  have hδw : δ <+: w := by
    rw [← hδ] at hp
    exact (List.prefix_append_right_inj a2).mp hp
  obtain ⟨w2, rfl⟩ := hw
  cases δ with
  | nil => exact hδne rfl
  | cons d δ2 =>
    obtain ⟨t, ht⟩ := hδw
    rw [List.cons_append] at ht
    have hd : d = '\n' := (List.cons.injEq _ _ _ _ ▸ ht).1
    have hmem : d ∈ sep.tail := by
      cases a2 with
      | nil => exact absurd rfl hne
      | cons a0 a2t =>
        have hsep2 : sep = a0 :: (a2t ++ d :: δ2) := by
          rw [← hδ]; simp
        rw [hsep2]
        simp
    exact hsep d hmem hd

theorem suffix_append_split (s2 a b : List Char) (h : s2 <:+ a ++ b) :
    s2 <:+ b ∨ ∃ a2, a2 <:+ a ∧ a2 ≠ [] ∧ s2 = a2 ++ b := by
  induction a generalizing s2 with
  | nil => exact Or.inl (by simpa using h)
  | cons c a ih =>
    rcases List.suffix_cons_iff.mp (by simpa using h) with heq | hs
    · right
      exact ⟨c :: a, List.suffix_refl _, by simp, by simpa using heq⟩
    · rcases ih s2 hs with h1 | ⟨a2, ha2, hne, rfl⟩
      · exact Or.inl h1
      · right
        exact ⟨a2, ha2.trans (List.suffix_cons c a), hne, rfl⟩

/-! ## Claim C3: character classes and the encoded payload -/

theorem hex_char_facts (c : Char) (h : isHexLower c = true) :
    c ≠ '"' ∧ c ≠ '\\' ∧ c ≠ '\n' ∧ isJsonWs c = false ∧ escChar c = [c] := by
  have h48 : 48 ≤ c.toNat := by
    rcases (by simpa [isHexLower, Bool.or_eq_true, Bool.and_eq_true,
      decide_eq_true_eq] using h :
      (48 ≤ c.toNat ∧ c.toNat ≤ 57) ∨ (97 ≤ c.toNat ∧ c.toNat ≤ 102)) with
      ⟨h1, -⟩ | ⟨h1, -⟩ <;> omega
  have hq : c ≠ '"' := by
    intro he; subst he; exact absurd h (by decide)
  have hb : c ≠ '\\' := by
    intro he; subst he; exact absurd h (by decide)
  have hn : c ≠ '\n' := by
    intro he; subst he; exact absurd h (by decide)
  have ht : c ≠ '\t' := by
    intro he; subst he; exact absurd h (by decide)
  have hr : c ≠ '\r' := by
    intro he; subst he; exact absurd h (by decide)
  have h08 : c ≠ '\x08' := by
    intro he; subst he; exact absurd h (by decide)
  have h0c : c ≠ '\x0c' := by
    intro he; subst he; exact absurd h (by decide)
  have hsp : c ≠ ' ' := by
    intro he; subst he; exact absurd h (by decide)
  refine ⟨hq, hb, hn, ?_, ?_⟩
  · simp [isJsonWs, hsp, ht, hn, hr]
  · unfold escChar
    rw [if_neg (not_or.mpr ⟨hq, hb⟩), if_neg hn, if_neg ht, if_neg hr,
      if_neg h08, if_neg h0c, if_neg (by omega)]

theorem flatMap_escChar_hex (l : List Char)
    (h : ∀ c ∈ l, isHexLower c = true) : l.flatMap escChar = l := by
  induction l with
  | nil => rfl
  | cons c cs ih =>
    rw [List.flatMap_cons, (hex_char_facts c (h c (List.mem_cons_self _ _))).2.2.2.2,
      ih (fun d hd => h d (List.mem_cons_of_mem c hd))]
    rfl

theorem encStr_hex (s : String) (h : isHexString s = true) :
    encStr s = '"' :: (s.data ++ ['"']) := by
  unfold encStr
  rw [flatMap_escChar_hex s.data
    (by simpa [isHexString, List.all_eq_true] using h)]
  simp

theorem mem_joinComma (c : Char) (ls : List (List Char))
    (h : c ∈ joinComma ls) : c = ',' ∨ ∃ l ∈ ls, c ∈ l := by
  induction ls with
  | nil => simp [joinComma] at h
  | cons x xs ih =>
    cases xs with
    | nil =>
      right
      exact ⟨x, by simp, by simpa [joinComma] using h⟩
    | cons y ys =>
      have hx : joinComma (x :: y :: ys) = x ++ ',' :: joinComma (y :: ys) := rfl
      rw [hx] at h
      rcases List.mem_append.mp h with h1 | h2
      · right; exact ⟨x, by simp, h1⟩
      · rcases List.mem_cons.mp h2 with rfl | h3
        · exact Or.inl rfl
        · rcases ih h3 with h4 | ⟨l, hl, hcl⟩
          · exact Or.inl h4
          · right; exact ⟨l, List.mem_cons_of_mem x hl, hcl⟩

theorem encodePayload_no_newline (commits : List String)
    (hhex : ∀ s ∈ commits, isHexString s = true) :
    ∀ c ∈ encodePayload commits, c ≠ '\n' := by
  intro c hc
  unfold encodePayload at hc
  rcases List.mem_append.mp hc with h1 | h2
  · rcases List.mem_append.mp h1 with h3 | h4
    · exact (by decide : ∀ x ∈ "\x7b\"commits\":[".data, x ≠ '\n') c h3
    · rcases mem_joinComma c _ h4 with rfl | ⟨l, hl, hcl⟩
      · decide
      · obtain ⟨s, hs, rfl⟩ := List.mem_map.mp hl
        rw [encStr_hex s (hhex s hs)] at hcl
        rcases List.mem_cons.mp hcl with rfl | h5
        · decide
        · rcases List.mem_append.mp h5 with h6 | h7
          · exact (hex_char_facts c (by
              have := hhex s hs
              simp only [isHexString, List.all_eq_true] at this
              exact this c h6)).2.2.1
          · rw [List.mem_singleton.mp h7]; decide
  · exact (by decide : ∀ x ∈ "]\x7d".data, x ≠ '\n') c h2

theorem encodePayload_ne_nil (commits : List String) :
    encodePayload commits ≠ [] := by
  have h2 : encodePayload commits =
      '\x7b' :: (("\"commits\":[".data ++ joinComma (commits.map encStr)) ++
        "]\x7d".data) := rfl
  rw [h2]
  exact List.cons_ne_nil _ _

/-! ## Claim C3: parser laws -/

theorem skipWs_cons_not (c : Char) (cs : List Char) (h : isJsonWs c = false) :
    skipWs (c :: cs) = c :: cs := by
  unfold skipWs
  rw [h]
  rfl

theorem isPrefixOf_cons_ne (a : Char) (as : List Char) (b : Char)
    (bs : List Char) (h : (a == b) = false) :
    (a :: as).isPrefixOf (b :: bs) = false := by
  simp only [List.isPrefixOf]
  rw [h]
  rfl

theorem parseStrContent_clean (l rest : List Char)
    (h : ∀ c ∈ l, c ≠ '"' ∧ c ≠ '\\') :
    parseStrContent (l ++ '"' :: rest) = some (l, rest) := by
  induction l with
  | nil =>
    rw [List.nil_append]
    unfold parseStrContent
    rw [if_pos rfl]
  | cons c l ih =>
    obtain ⟨h1, h2⟩ := h c (List.mem_cons_self _ _)
    rw [List.cons_append]
    unfold parseStrContent
    rw [if_neg h1, if_neg h2, ih (fun d hd => h d (List.mem_cons_of_mem c hd))]
    rfl

theorem parseM_val_string (fuel : Nat) (l rest : List Char)
    (h : ∀ c ∈ l, c ≠ '"' ∧ c ≠ '\\') :
    parseM (fuel + 1) .val ('"' :: (l ++ '"' :: rest)) =
      some (.str (String.mk l), rest) := by
  simp only [parseM]
  rw [skipWs_cons_not '"' _ (by decide),
    isPrefixOf_cons_ne 'n' _ '"' _ (by decide),
    isPrefixOf_cons_ne 't' _ '"' _ (by decide),
    isPrefixOf_cons_ne 'f' _ '"' _ (by decide)]
  simp [parseStrContent_clean l rest h]

/-- One-step unfolding of the `.val` arm of `parseM`. -/
theorem parseM_val_eq (fuel : Nat) (cs : List Char) :
    parseM (fuel + 1) .val cs =
      (if "null".data.isPrefixOf (skipWs cs) then some (.null, (skipWs cs).drop 4)
       else if "true".data.isPrefixOf (skipWs cs) then
         some (.bool true, (skipWs cs).drop 4)
       else if "false".data.isPrefixOf (skipWs cs) then
         some (.bool false, (skipWs cs).drop 5)
       else
         match skipWs cs with
         | [] => none
         | c :: rest =>
           if c = '"' then
             (parseStrContent rest).map (fun p => (.str (String.mk p.1), p.2))
           else if c = '[' then
             (if (skipWs rest).head? = some ']' then
                some (.arr [], (skipWs rest).tail)
              else parseM fuel (.elems []) rest)
           else if c = '\x7b' then
             (if (skipWs rest).head? = some '\x7d' then
                some (.obj [], (skipWs rest).tail)
              else parseM fuel (.members []) rest)
           else
             (parseNumToken (c :: rest)).map
               (fun p => (.num (String.mk p.1), p.2))) := rfl

/-- One-step unfolding of the `.elems` arm of `parseM`. -/
theorem parseM_elems_eq (fuel : Nat) (acc : List Json) (cs : List Char) :
    parseM (fuel + 1) (.elems acc) cs =
      (match parseM fuel .val cs with
       | none => none
       | some (v, r) =>
         if (skipWs r).head? = some ',' then
           parseM fuel (.elems (acc ++ [v])) (skipWs r).tail
         else if (skipWs r).head? = some ']' then
           some (.arr (acc ++ [v]), (skipWs r).tail)
         else none) := rfl

/-- One-step unfolding of the `.members` arm of `parseM`. -/
theorem parseM_members_eq (fuel : Nat) (acc : List (String × Json))
    (cs : List Char) :
    parseM (fuel + 1) (.members acc) cs =
      (match skipWs cs with
       | [] => none
       | d :: r =>
         if d = '"' then
           match parseStrContent r with
           | none => none
           | some (k, r2) =>
             if (skipWs r2).head? = some ':' then
               match parseM fuel .val (skipWs r2).tail with
               | none => none
               | some (v, r4) =>
                 if (skipWs r4).head? = some ',' then
                   parseM fuel (.members (acc ++ [(String.mk k, v)])) (skipWs r4).tail
                 else if (skipWs r4).head? = some '\x7d' then
                   some (.obj (acc ++ [(String.mk k, v)]), (skipWs r4).tail)
                 else none
             else none
         else none) := rfl

theorem hex_clean (s : String) (hs : isHexString s = true) :
    ∀ c ∈ s.data, c ≠ '"' ∧ c ≠ '\\' := by
  intro c hc
  simp only [isHexString, List.all_eq_true] at hs
  have hf := hex_char_facts c (hs c hc)
  exact ⟨hf.1, hf.2.1⟩

theorem parseM_elems_clean (ss : List String) :
    ∀ (acc : List Json) (rest : List Char) (fuel : Nat),
      2 * ss.length + 2 ≤ fuel →
      (∀ s ∈ ss, isHexString s = true) →
      ss ≠ [] →
      parseM fuel (.elems acc) (joinComma (ss.map encStr) ++ ']' :: rest) =
        some (.arr (acc ++ ss.map Json.str), rest) := by
  induction ss with
  | nil => intro acc rest fuel hfuel hhex hne; exact absurd rfl hne
  | cons s ss ih =>
    intro acc rest fuel hfuel hhex hne
    have hs := hhex s (List.mem_cons_self _ _)
    have hclean := hex_clean s hs
    cases ss with
    | nil =>
      have hj : joinComma ([s].map encStr) ++ ']' :: rest =
          '"' :: (s.data ++ '"' :: ']' :: rest) := by
        have : joinComma ([s].map encStr) = encStr s := rfl
        rw [this, encStr_hex s hs]
        simp
      rw [hj]
      obtain ⟨f, rfl⟩ : ∃ f, fuel = f + 1 := ⟨fuel - 1, by omega⟩
      obtain ⟨f2, rfl⟩ : ∃ f2, f = f2 + 1 := ⟨f - 1, by omega⟩
      rw [parseM_elems_eq, parseM_val_string f2 s.data (']' :: rest) hclean]
      simp [skipWs_cons_not ']' rest (by decide)]
    | cons s2 ss2 =>
      have hj : joinComma ((s :: s2 :: ss2).map encStr) ++ ']' :: rest =
          '"' :: (s.data ++ '"' ::
            (',' :: (joinComma ((s2 :: ss2).map encStr) ++ ']' :: rest))) := by
        have : joinComma ((s :: s2 :: ss2).map encStr) =
            encStr s ++ ',' :: joinComma ((s2 :: ss2).map encStr) := rfl
        rw [this, encStr_hex s hs]
        simp
      rw [hj]
      obtain ⟨f, rfl⟩ : ∃ f, fuel = f + 1 := ⟨fuel - 1, by omega⟩
      obtain ⟨f2, rfl⟩ : ∃ f2, f = f2 + 1 := ⟨f - 1, by omega⟩
      rw [parseM_elems_eq, parseM_val_string f2 s.data _ hclean]
      have hsw := skipWs_cons_not ','
        (joinComma ((s2 :: ss2).map encStr) ++ ']' :: rest) (by decide)
      simp only [hsw, List.head?_cons, Option.some.injEq, List.tail_cons]
      rw [if_pos True.intro]
      rw [ih (acc ++ [Json.str s]) rest (f2 + 1)
        (by simp at hfuel ⊢; omega)
        (fun x hx => hhex x (List.mem_cons_of_mem s hx))
        (by simp)]
      simp

theorem parseM_val_payload (commits : List String) (rest : List Char)
    (fuel : Nat) (hfuel : 2 * commits.length + 6 ≤ fuel)
    (hhex : ∀ s ∈ commits, isHexString s = true) :
    parseM fuel .val (encodePayload commits ++ rest) =
      some (.obj [("commits", .arr (commits.map Json.str))], rest) := by
  have hshape : encodePayload commits ++ rest =
      '\x7b' :: ('"' :: ("commits".data ++ '"' :: ':' :: '[' ::
        (joinComma (commits.map encStr) ++ ']' :: '\x7d' :: rest))) := by
    have h0 : encodePayload commits =
        '\x7b' :: '"' :: ('c' :: 'o' :: 'm' :: 'm' :: 'i' :: 't' :: 's' :: []) ++
          '"' :: ':' :: '[' :: (joinComma (commits.map encStr) ++
            ']' :: '\x7d' :: []) := by
      unfold encodePayload
      simp
    rw [h0]
    simp
  rw [hshape]
  obtain ⟨f, rfl⟩ : ∃ f, fuel = f + 1 := ⟨fuel - 1, by omega⟩
  rw [parseM_val_eq]
  rw [skipWs_cons_not '\x7b' _ (by decide),
    isPrefixOf_cons_ne 'n' _ '\x7b' _ (by decide),
    isPrefixOf_cons_ne 't' _ '\x7b' _ (by decide),
    isPrefixOf_cons_ne 'f' _ '\x7b' _ (by decide)]
  have hsw1 := skipWs_cons_not '"'
    ("commits".data ++ '"' :: ':' :: '[' ::
      (joinComma (commits.map encStr) ++ ']' :: '\x7d' :: rest)) (by decide)
  simp only [Bool.false_eq_true, if_false, hsw1, List.head?_cons,
    Option.some.injEq]
  rw [if_neg (by decide), if_neg (by decide), if_pos True.intro,
    if_neg (by decide)]
  obtain ⟨f2, rfl⟩ : ∃ f2, f = f2 + 1 := ⟨f - 1, by omega⟩
  rw [parseM_members_eq]
  have hsw2 := skipWs_cons_not '"'
    (['c', 'o', 'm', 'm', 'i', 't', 's'] ++ '"' :: ':' :: '[' ::
      (joinComma (commits.map encStr) ++ ']' :: '\x7d' :: rest)) (by decide)
  simp only [hsw2]
  rw [if_pos True.intro,
    parseStrContent_clean ['c', 'o', 'm', 'm', 'i', 't', 's']
      (':' :: '[' :: (joinComma (commits.map encStr) ++ ']' :: '\x7d' :: rest))
      (by decide)]
  have hsw3 := skipWs_cons_not ':'
    ('[' :: (joinComma (commits.map encStr) ++ ']' :: '\x7d' :: rest))
    (by decide)
  simp only [hsw3, List.head?_cons, Option.some.injEq, List.tail_cons]
  rw [if_pos True.intro]
  obtain ⟨f3, rfl⟩ : ∃ f3, f2 = f3 + 1 := ⟨f2 - 1, by omega⟩
  rw [parseM_val_eq]
  rw [skipWs_cons_not '[' _ (by decide),
    isPrefixOf_cons_ne 'n' _ '[' _ (by decide),
    isPrefixOf_cons_ne 't' _ '[' _ (by decide),
    isPrefixOf_cons_ne 'f' _ '[' _ (by decide)]
  simp only [Bool.false_eq_true, if_false]
  rw [if_neg (by decide), if_pos True.intro]
  cases commits with
  | nil =>
    have hj0 : joinComma (([] : List String).map encStr) ++
        ']' :: '\x7d' :: rest = ']' :: '\x7d' :: rest := rfl
    rw [hj0]
    have hsw4 := skipWs_cons_not ']' ('\x7d' :: rest) (by decide)
    have hsw5 := skipWs_cons_not '\x7d' rest (by decide)
    simp only [hsw4, List.head?_cons, Option.some.injEq, List.tail_cons]
    rw [if_pos True.intro]
    simp only [hsw5, List.head?_cons, Option.some.injEq, List.tail_cons]
    rw [if_neg (by decide), if_pos True.intro]
    rfl
  | cons c0 cs0 =>
    have hs0 := hhex c0 (List.mem_cons_self _ _)
    have hhead : ∃ jt, joinComma ((c0 :: cs0).map encStr) = '"' :: jt := by
      cases cs0 with
      | nil =>
        refine ⟨c0.data ++ ['"'], ?_⟩
        have h5 : joinComma ([c0].map encStr) = encStr c0 := rfl
        rw [h5, encStr_hex c0 hs0]
      | cons c1 cs1 =>
        refine ⟨(c0.data ++ ['"']) ++ ',' ::
          joinComma ((c1 :: cs1).map encStr), ?_⟩
        have h5 : joinComma ((c0 :: c1 :: cs1).map encStr) =
            encStr c0 ++ ',' :: joinComma ((c1 :: cs1).map encStr) := rfl
        rw [h5, encStr_hex c0 hs0]
        simp
    obtain ⟨jt, hjt⟩ := hhead
    rw [hjt, List.cons_append]
    have hsw6 := skipWs_cons_not '"'
      (jt ++ ']' :: '\x7d' :: rest) (by decide)
    simp only [hsw6, List.head?_cons, Option.some.injEq]
    rw [if_neg (by decide), ← List.cons_append, ← hjt,
      parseM_elems_clean (c0 :: cs0) [] ('\x7d' :: rest) f3
        (by simp at hfuel ⊢; omega)
        hhex (by simp)]
    have hsw7 := skipWs_cons_not '\x7d' rest (by decide)
    simp only [hsw7, List.head?_cons, Option.some.injEq, List.tail_cons]
    rw [if_neg (by decide), if_pos True.intro]
    rfl
/-! ## Claim C3: assembling the round trip -/

theorem not_prefix_of_head_ne (x y : Char) (xs ys : List Char) (h : x ≠ y) :
    ¬ (x :: xs) <+: (y :: ys) := by
  rintro ⟨t, ht⟩
  rw [List.cons_append] at ht
  injection ht with h1 h2
  exact h h1

theorem encStr_two_le (s : String) : 2 ≤ (encStr s).length := by
  unfold encStr
  simp

theorem joinComma_encStr_length (ss : List String) :
    3 * ss.length ≤ (joinComma (ss.map encStr)).length + 1 := by
  induction ss with
  | nil => simp
  | cons s ss ih =>
    cases ss with
    | nil =>
      have := encStr_two_le s
      have hj : joinComma ([s].map encStr) = encStr s := rfl
      rw [hj, show ([s] : List String).length = 1 from rfl]
      omega
    | cons s2 ss2 =>
      have h1 := encStr_two_le s
      have hj : joinComma ((s :: s2 :: ss2).map encStr) =
          encStr s ++ ',' :: joinComma ((s2 :: ss2).map encStr) := rfl
      rw [hj]
      simp only [List.length_append, List.length_cons, List.length_map] at ih ⊢
      omega

theorem jsonParseL_payload (commits : List String)
    (hhex : ∀ s ∈ commits, isHexString s = true) :
    jsonParseL (encodePayload commits) =
      some (.obj [("commits", .arr (commits.map Json.str))]) := by
  unfold jsonParseL
  have hfuel : 2 * commits.length + 6 ≤ (encodePayload commits).length + 2 := by
    have h1 := joinComma_encStr_length commits
    have h2 : (encodePayload commits).length =
        (joinComma (commits.map encStr)).length + 14 := by
      unfold encodePayload
      simp
    omega
  have h := parseM_val_payload commits [] ((encodePayload commits).length + 2)
    hfuel hhex
  rw [List.append_nil] at h
  rw [h]
  rfl

theorem getStrList_map (l : List String) :
    getStrList (l.map Json.str) = some l := by
  induction l with
  | nil => rfl
  | cons s ss ih =>
    rw [List.map_cons]
    unfold getStrList
    rw [ih]
    rfl

/-- The character lists of the fixed markers. -/
theorem recoverPayload_encode (prose : String) (commits : List String)
    (hprose : containsSub PAYLOAD_TAG_OPEN prose = false)
    (hhex : ∀ s ∈ commits, isHexString s = true) :
    recoverPayload (buildOverviewMessage prose commits) =
      .assigned (some (.arr (commits.map Json.str))) := by
  have hproseOcc : ∀ s2, s2 <:+ prose.data →
      ¬ PAYLOAD_TAG_OPEN.data.isPrefixOf s2 = true := by
    have hnone : splitFirstL PAYLOAD_TAG_OPEN.data prose.data = none := by
      simpa [containsSub, containsSubL, Option.not_isSome_iff_eq_none]
        using hprose
    exact splitFirstL_none_suffix _ _ hnone
  have hdata : (buildOverviewMessage prose commits).data =
      (prose.data ++ OVERVIEW_MESSAGE_SIGNATURE.data) ++
        (PAYLOAD_TAG_OPEN.data ++
          (encodePayload commits ++ PAYLOAD_TAG_CLOSE.data)) := by
    unfold buildOverviewMessage
    simp [String.data_append, List.append_assoc]
  have hnl := encodePayload_no_newline commits hhex
  have hD : ∀ t ∈ OVERVIEW_MESSAGE_SIGNATURE.data.tails, t = [] ∨
      (PAYLOAD_TAG_OPEN.data.isPrefixOf t = false ∧
        t.isPrefixOf PAYLOAD_TAG_OPEN.data = false) := by decide
  have hDc : ∀ t ∈ PAYLOAD_TAG_CLOSE.data.tails,
      PAYLOAD_TAG_OPEN.data.isPrefixOf t = false := by decide
  -- step 1: the first split lands exactly at the payload-open marker
  have hstep1 : splitFirstL PAYLOAD_TAG_OPEN.data
      (buildOverviewMessage prose commits).data =
        some (prose.data ++ OVERVIEW_MESSAGE_SIGNATURE.data,
          encodePayload commits ++ PAYLOAD_TAG_CLOSE.data) := by
    rw [hdata]
    apply splitFirstL_hit
    intro s2 hs2 hne hp
    rcases suffix_append_split s2 prose.data OVERVIEW_MESSAGE_SIGNATURE.data
        hs2 with hsig | ⟨a2, ha2, hane, rfl⟩
    · rcases hD s2 (List.mem_tails _ _ |>.mpr hsig) with rfl | ⟨h1, h2⟩
      · exact hne rfl
      · exact not_prefix_append_of _ _ _
          (fun hpp => by
            rw [List.isPrefixOf_iff_prefix.mpr hpp] at h1
            exact Bool.noConfusion h1)
          (fun hpp => by
            rw [List.isPrefixOf_iff_prefix.mpr hpp] at h2
            exact Bool.noConfusion h2)
          (List.isPrefixOf_iff_prefix.mp hp)
    · rw [List.append_assoc] at hp
      refine no_mid_newline_overlap PAYLOAD_TAG_OPEN.data
        (OVERVIEW_MESSAGE_SIGNATURE.data ++
          (PAYLOAD_TAG_OPEN.data ++
            (encodePayload commits ++ PAYLOAD_TAG_CLOSE.data)))
        a2 ?_ hane (by decide) ?_ (List.isPrefixOf_iff_prefix.mp hp)
      · intro hpp
        exact hproseOcc a2 ha2 (List.isPrefixOf_iff_prefix.mpr hpp)
      · refine ⟨"<!-- presubmit.ai: overview message -->".data ++
          (PAYLOAD_TAG_OPEN.data ++
            (encodePayload commits ++ PAYLOAD_TAG_CLOSE.data)), ?_⟩
        rfl
  -- step 2: no second occurrence of the open marker after the first
  have hstep2 : splitFirstL PAYLOAD_TAG_OPEN.data
      (encodePayload commits ++ PAYLOAD_TAG_CLOSE.data) = none := by
    apply splitFirstL_none
    intro s2 hs2 hp
    rcases suffix_append_split s2 (encodePayload commits)
        PAYLOAD_TAG_CLOSE.data hs2 with hcl | ⟨a2, ha2, hane, rfl⟩
    · have hd := hDc s2 (List.mem_tails _ _ |>.mpr hcl)
      rw [hp] at hd
      exact Bool.noConfusion hd
    · cases a2 with
      | nil => exact hane rfl
      | cons c a2t =>
        have hc : c ∈ encodePayload commits :=
          ha2.subset (List.mem_cons_self _ _)
        have hcn : c ≠ '\n' := hnl c hc
        have hopen : PAYLOAD_TAG_OPEN.data =
            '\n' :: "<!-- presubmit.ai: payload --".data := rfl
        rw [hopen, List.cons_append] at hp
        exact not_prefix_of_head_ne _ _ _ _ (fun he => hcn he.symm)
          (List.isPrefixOf_iff_prefix.mp hp)
  -- step 3: the close marker splits the payload text exactly
  have hstep3 : splitFirstL PAYLOAD_TAG_CLOSE.data
      (encodePayload commits ++ PAYLOAD_TAG_CLOSE.data) =
        some (encodePayload commits, []) := by
    have h1 : splitFirstL PAYLOAD_TAG_CLOSE.data
        (encodePayload commits ++ PAYLOAD_TAG_CLOSE.data) =
          (splitFirstL PAYLOAD_TAG_CLOSE.data PAYLOAD_TAG_CLOSE.data).map
            (fun p => (encodePayload commits ++ p.1, p.2)) := by
      apply splitFirstL_skip
      intro s2 hs2 hne hp
      cases s2 with
      | nil => exact hne rfl
      | cons c s2t =>
        have hc : c ∈ encodePayload commits :=
          hs2.subset (List.mem_cons_self _ _)
        have hcn : c ≠ '\n' := hnl c hc
        have hclose : PAYLOAD_TAG_CLOSE.data =
            '\n' :: "-- presubmit.ai: payload -->".data := rfl
        rw [hclose, List.cons_append] at hp
        exact not_prefix_of_head_ne _ _ _ _ (fun he => hcn he.symm)
          (List.isPrefixOf_iff_prefix.mp hp)
    rw [h1, splitFirstL_here _ _
      (List.isPrefixOf_iff_prefix.mpr (List.prefix_refl _))]
    simp
  have hext : extractPayloadText (buildOverviewMessage prose commits).data =
      some (encodePayload commits) := by
    unfold extractPayloadText
    rw [hstep1]
    simp only [firstSegL, hstep2, hstep3]
  unfold recoverPayload
  rw [hext]
  simp only []
  rw [if_neg (encodePayload_ne_nil commits), jsonParseL_payload commits hhex]
  simp [payloadCommitsJs]

/-- C3: for every list of commit-SHA strings (strings over the `[a-f0-9]`
alphabet) and any overview prose that does not itself contain the payload
open marker, decoding the text produced by `buildOverviewMessage` — the
body, the signature, `PAYLOAD_TAG_OPEN`, the JSON of `{commits}`, and
`PAYLOAD_TAG_CLOSE` — recovers exactly the same commits list. -/
theorem c3_payload_roundtrip (prose : String) (commits : List String)
    (hprose : containsSub PAYLOAD_TAG_OPEN prose = false)
    (hhex : ∀ s ∈ commits, isHexString s = true) :
    recoverCommits (buildOverviewMessage prose commits) = .list commits := by
  unfold recoverCommits
  rw [recoverPayload_encode prose commits hprose hhex]
  simp [classify, getStrList_map]

/-- C3 witness: a concrete prose body and SHA list round-trip. -/
theorem c3_witness :
    recoverCommits (buildOverviewMessage "### Changes\n\nSome prose.\n"
        ["a1b2c3d", "0123abc"]) = .list ["a1b2c3d", "0123abc"] := by
  exact c3_payload_roundtrip "### Changes\n\nSome prose.\n"
    ["a1b2c3d", "0123abc"] (by decide) (by decide)

end AiReviewer

